import Mathlib

/-!
Verification of the arithmetic-expression interpreter (calc.py and the
LISP-notation variant) against its natural-language specification.

The embedding follows the Python source faithfully:
- `getNextToken` / `readIntegerLoop` embed `Lexer.get_next_token` /
  `Lexer.read_integer` of calc.py (character-level, position cursor).
- `arExpr` / `continueArExpr` embed `Interpreter.ar_expr` /
  `Interpreter.continue_ar_expr` of calc.py, with the interpreter's
  mutable fields (`current_token`, `open_brackets`, `closed_brackets`,
  lexer position) threaded through an explicit state record and Python
  exceptions modelled by `Except`.  Recursion is expressed with a fuel
  parameter; a separate theorem shows the chosen fuel never runs out.
- Python runtime values that can sit in a token (`int`, one-character
  strings for operators, `None` for EOF) are modelled by `PyValue`, and
  the dynamically-typed arithmetic of `+`, unary `-`, `*`, `//` by
  `pyAdd`, `pyNeg`, `pyMul`, `pyFloorDiv`, including Python's
  `TypeError` and `ZeroDivisionError` behaviours and string
  concatenation / repetition.
-/

namespace Calc

/-- Token types of calc.py (the module-level string constants). -/
inductive TokenType where
  | INTEGER
  | PLUS
  | MINUS
  | MULTIPLICATION
  | DIVISION
  | EOF
  | OPEN_BRACKET
  | CLOSING_BRACKET
deriving DecidableEq, Repr

/-- Python values that appear as token payloads in calc.py: integers for
INTEGER tokens, one-character strings for operator tokens, `None` for EOF.
Because of the untyped fall-through in `continue_ar_expr`, strings can end
up as operand values, so arithmetic on `PyValue` mirrors Python's dynamic
semantics. -/
inductive PyValue where
  | vInt (n : Int)
  | vStr (s : List Char)
  | vNone
deriving DecidableEq, Repr

/-- A token of calc.py: a type tag and a Python value. -/
structure Token where
  type : TokenType
  value : PyValue
deriving DecidableEq, Repr

/-- The distinct ways a run of calc.py can fail.  `lexErr` is
`Lexer.error`, `parseErr` is `Interpreter.error` /
`validate_and_advance_token` failure (in Python both raise
`Exception('Error parsing input!')`; we keep the raise sites apart),
`typeErr` is an uncaught Python `TypeError`, `zeroDivErr` an uncaught
Python `ZeroDivisionError`.  `fuelOut` marks exhaustion of the fuel
parameter of the embedding; it is proved unreachable for the fuel used
by `calcEvaluate`. -/
inductive CalcErr where
  | lexErr
  | parseErr
  | typeErr
  | zeroDivErr
  | fuelOut
deriving DecidableEq, Repr

/-- Numeric value of an ASCII digit character. -/
def digitVal (c : Char) : Nat := c.toNat - 48

/-- Python `int(s)` on a string of ASCII digits: the decimal
interpretation, left-to-right. -/
def decimalValue (s : List Char) : Nat :=
  s.foldl (fun a c => 10 * a + digitVal c) 0

/-- Python `str.isdigit` restricted to ASCII: nonempty and all digits. -/
def pyStrIsdigit (s : List Char) : Bool := !s.isEmpty && s.all Char.isDigit

/-- The loop of `Lexer.read_integer`, written with a structural step
counter `k` so that the kernel can evaluate it (the wrapper
`readIntegerLoop` below instantiates `k` with the remaining text, which
bounds the number of iterations; `readIntegerLoop_eq` recovers the
loop equation): `current_char` starts as the string "0" and digits of
the input are appended while the cursor sees digits; the loop breaks
once the cursor reaches the end of the text. -/
def readIntegerLoopGo : Nat → List Char → List Char → Nat →
    List Char × Nat
  | 0, _, acc, pos => (acc, pos)
  | k + 1, text, acc, pos =>
    if pyStrIsdigit acc && (text.getD pos '?').isDigit then
      let acc2 := acc ++ [text.getD pos '?']
      if pos + 1 = text.length then (acc2, pos + 1)
      else readIntegerLoopGo k text acc2 (pos + 1)
    else (acc, pos)

/-- The loop of `Lexer.read_integer`: returns the accumulated digit
string and the new cursor position. -/
def readIntegerLoop (text : List Char) (acc : List Char) (pos : Nat) :
    List Char × Nat :=
  readIntegerLoopGo (text.length - pos) text acc pos

/-- `Lexer.read_integer` of calc.py: reads a maximal digit run starting
at `pos` (the caller guarantees a digit there) and returns
`int('0' + run)` together with the new position. -/
def readInteger (text : List Char) (pos : Nat) : Nat × Nat :=
  let r := readIntegerLoop text ['0'] pos
  (decimalValue r.1, r.2)

/-- `Lexer.get_next_token` of calc.py.  Returns the token and the new
cursor position, or the lexer error for an unrecognized character.
Whitespace handling is exactly the source's: only the space character is
skipped (by recursion); a tab, like any other unlisted character, hits
`Lexer.error`. -/
def getNextTokenGo : Nat → List Char → Nat →
    Except CalcErr (Token × Nat)
  | 0, _, pos => .ok (⟨.EOF, .vNone⟩, pos)
  | k + 1, text, pos =>
    if pos ≥ text.length then .ok (⟨.EOF, .vNone⟩, pos)
    else
      let c := text.getD pos '?'
      if c.isDigit then
        let r := readInteger text pos
        .ok (⟨.INTEGER, .vInt r.1⟩, r.2)
      else if c = '+' then .ok (⟨.PLUS, .vStr ['+']⟩, pos + 1)
      else if c = '-' then .ok (⟨.MINUS, .vStr ['-']⟩, pos + 1)
      else if c = '/' then .ok (⟨.DIVISION, .vStr ['/']⟩, pos + 1)
      else if c = '*' then .ok (⟨.MULTIPLICATION, .vStr ['*']⟩, pos + 1)
      else if c = '(' then .ok (⟨.OPEN_BRACKET, .vStr ['(']⟩, pos + 1)
      else if c = ')' then .ok (⟨.CLOSING_BRACKET, .vStr [')']⟩, pos + 1)
      else if c = ' ' then getNextTokenGo k text (pos + 1)
      else .error .lexErr

/-- Entry point mirroring `Lexer.get_next_token`: the step counter is
the length of the unread text, which bounds the recursion (the cursor
advances by one on each skipped space); `getNextToken_eq` below
recovers the source's recursive equation. -/
def getNextToken (text : List Char) (pos : Nat) :
    Except CalcErr (Token × Nat) :=
  getNextTokenGo (text.length - pos) text pos

/-- Python `+` on the values that can occur here: integer addition,
string concatenation, otherwise `TypeError`. -/
def pyAdd : PyValue → PyValue → Except CalcErr PyValue
  | .vInt a, .vInt b => .ok (.vInt (a + b))
  | .vStr a, .vStr b => .ok (.vStr (a ++ b))
  | _, _ => .error .typeErr

/-- Python unary `-`: integer negation, otherwise `TypeError`. -/
def pyNeg : PyValue → Except CalcErr PyValue
  | .vInt a => .ok (.vInt (-a))
  | _ => .error .typeErr

/-- String repetition, as in Python `n * s` (nonpositive `n` gives the
empty string). -/
def strRepeat (s : List Char) : Nat → List Char
  | 0 => []
  | n + 1 => s ++ strRepeat s n

/-- Python `*`: integer multiplication, integer-by-string repetition,
otherwise `TypeError`. -/
def pyMul : PyValue → PyValue → Except CalcErr PyValue
  | .vInt a, .vInt b => .ok (.vInt (a * b))
  | .vInt a, .vStr s => .ok (.vStr (strRepeat s a.toNat))
  | .vStr s, .vInt a => .ok (.vStr (strRepeat s a.toNat))
  | _, _ => .error .typeErr

/-- Python `//` on integers: floor division, raising
`ZeroDivisionError` on a zero right operand; `TypeError` on
non-integers. -/
def pyFloorDiv : PyValue → PyValue → Except CalcErr PyValue
  | .vInt a, .vInt b =>
      if b = 0 then .error .zeroDivErr else .ok (.vInt (Int.fdiv a b))
  | _, _ => .error .typeErr

/-- The mutable state of a calc.py `Interpreter` object together with
its embedded `Lexer`: the source text, the lexer cursor `pos`, the
field `current_token`, and the two bracket counters. -/
structure St where
  text : List Char
  pos : Nat
  current : Token
  openB : Nat
  closedB : Nat
deriving DecidableEq, Repr

/-- `self.current_token = self.lexer.get_next_token()`. -/
def fetchToken (st : St) : Except CalcErr St :=
  match getNextToken st.text st.pos with
  | .ok r => .ok { st with current := r.1, pos := r.2 }
  | .error e => .error e

/-- `Interpreter.validate_and_advance_token` of calc.py. -/
def validateAndAdvanceToken (ty : TokenType) (st : St) :
    Except CalcErr St :=
  if st.current.type = ty then fetchToken st else .error .parseErr

/-- Outcome of the right-operand handling phase of
`continue_ar_expr` (its lines 168-179): either the function returned
early (on a closing bracket), or it proceeds to the operator dispatch
with a resolved right token. -/
inductive RightStep where
  | early (v : PyValue) (st : St)
  | proceed (right : Token) (st : St)

mutual

/-- `Interpreter.ar_expr` of calc.py. -/
def arExpr : Nat → St → Except CalcErr (PyValue × St)
  | 0, _ => .error .fuelOut
  | fuel + 1, st => do
    let st ← fetchToken st
    let left := st.current
    if left.type = .OPEN_BRACKET then
      arExpr fuel { st with openB := st.openB + 1 }
    else do
      let st ← validateAndAdvanceToken .INTEGER st
      let r ← continueArExpr fuel left st
      if r.2.openB ≠ r.2.closedB then .error .parseErr
      else .ok r

/-- `Interpreter.continue_ar_expr` of calc.py.  `left` is the function
argument; the dispatch at the end mirrors the source's if/elif/else
chain, whose final `else` (commented `# operation == DIVISION` in the
source) also catches every token type other than PLUS, MINUS,
MULTIPLICATION and EOF. -/
def continueArExpr : Nat → Token → St → Except CalcErr (PyValue × St)
  | 0, _, _ => .error .fuelOut
  | fuel + 1, left, st =>
    let op := st.current.type
    if op = .EOF then .ok (left.value, st)
    else do
      let st ←
        if op = .PLUS then validateAndAdvanceToken .PLUS st
        else if op = .MINUS then validateAndAdvanceToken .MINUS st
        else if op = .MULTIPLICATION then
          validateAndAdvanceToken .MULTIPLICATION st
        else if op = .DIVISION then validateAndAdvanceToken .DIVISION st
        else .ok st
      let step ← (do
        let right := st.current
        match right.type with
        | .INTEGER => do
            let st ← validateAndAdvanceToken .INTEGER st
            pure (RightStep.proceed right st)
        | .OPEN_BRACKET => do
            let r ← arExpr fuel { st with openB := st.openB + 1 }
            pure (RightStep.proceed ⟨.INTEGER, r.1⟩ r.2)
        | .CLOSING_BRACKET => do
            let st ← validateAndAdvanceToken .CLOSING_BRACKET st
            pure (RightStep.early left.value
              { st with closedB := st.closedB + 1 })
        | _ => pure (RightStep.proceed right st))
      match step with
      | .early v st => .ok (v, st)
      | .proceed right st =>
        if op = .PLUS then do
          let r ← continueArExpr fuel ⟨.INTEGER, right.value⟩ st
          let result ← pyAdd left.value r.1
          continueArExpr fuel ⟨.INTEGER, result⟩ r.2
        else if op = .MINUS then do
          let nv ← pyNeg right.value
          let r ← continueArExpr fuel ⟨.INTEGER, nv⟩ st
          let result ← pyAdd left.value r.1
          continueArExpr fuel ⟨.INTEGER, result⟩ r.2
        else if op = .MULTIPLICATION then do
          let result ← pyMul left.value right.value
          continueArExpr fuel ⟨.INTEGER, result⟩ st
        else do
          let result ← pyFloorDiv left.value right.value
          continueArExpr fuel ⟨.INTEGER, result⟩ st

end

/-- The fuel `calcEvaluate` supplies; proved sufficient (see the
termination theorem for claim C9). -/
def calcFuel (text : List Char) : Nat := 2 * text.length + 2

/-- Initial interpreter state for a source string, as built by
`Interpreter.__init__` (Python's initial `current_token = None` is
represented by an EOF/None token; it is overwritten before first use). -/
def initSt (text : List Char) : St :=
  { text := text, pos := 0, current := ⟨.EOF, .vNone⟩,
    openB := 0, closedB := 0 }

/-- Running calc.py on an input line: `Interpreter(text).ar_expr()`. -/
def calcEvaluate (s : String) : Except CalcErr PyValue :=
  match arExpr (calcFuel s.data) (initSt s.data) with
  | .ok r => .ok r.1
  | .error e => .error e

end Calc

namespace LispVariant

/-!
The backward-scanning lexer of LISP_Notation_interpreter.py.  Its `pos`
starts at the last character and `advance` moves it left, with
`current_char = None` once the position falls below zero; we model the
pair (position, current character present?) by an `Option Nat`.
-/

/-- `Lexer.advance` of the LISP variant: move left, `none` past the
start. -/
def lispAdvance (pos : Nat) : Option Nat :=
  if pos = 0 then none else some (pos - 1)

/-- The loop of `Lexer.integer` of the LISP variant, with a structural
step counter (the wrapper below instantiates it with the cursor
position plus one, which bounds the leftward walk): while the current
character is a digit, append it to `result` and advance (leftward). -/
def lispIntegerLoopGo : Nat → List Char → List Char → Option Nat →
    List Char × Option Nat
  | _, _, acc, none => (acc, none)
  | 0, _, acc, some p => (acc, some p)
  | k + 1, text, acc, some p =>
    let c := text.getD p '?'
    if c.isDigit then
      match lispAdvance p with
      | none => (acc ++ [c], none)
      | some q => lispIntegerLoopGo k text (acc ++ [c]) (some q)
    else (acc, some p)

/-- The loop of `Lexer.integer` of the LISP variant: while the current
character is a digit, append it to `result` and advance (leftward). -/
def lispIntegerLoop (text : List Char) (acc : List Char)
    (o : Option Nat) : List Char × Option Nat :=
  lispIntegerLoopGo (match o with | none => 0 | some p => p + 1)
    text acc o

/-- `Lexer.integer` of the LISP variant, started at position `p` of
`text` (the caller has seen a digit there): the Python `int(result)` of
the string accumulated while scanning right-to-left. -/
def lispInteger (text : List Char) (p : Nat) : Nat :=
  Calc.decimalValue (lispIntegerLoop text [] (some p)).1

end LispVariant

namespace Spec

/-!
Reference semantics following the specification's words (spec.md §4):
a left-to-right lexer that skips space and tab, the two-level
precedence-climbing grammar

  expression := term ( (PLUS | MINUS) term )*
  term       := factor ( (STAR | SLASH) factor )*
  factor     := INTEGER | LPAREN expression RPAREN

with left-associativity, a `TrailingInput` error when tokens remain, and
a tree-walking evaluator with floor division and a `DivisionByZero`
check.  These definitions follow the spec, not the source; they serve as
the comparison point for refinement claims.
-/

/-- Spec token kinds (spec.md §3). -/
inductive SToken where
  | int (n : Nat)
  | plus
  | minus
  | star
  | slash
  | lparen
  | rparen
deriving DecidableEq, Repr

/-- Spec failure taxonomy (spec.md §6-§7). -/
inductive SpecErr where
  | lexError
  | unexpectedToken
  | unmatchedParen
  | trailingInput
  | divByZero
deriving DecidableEq, Repr

/-- Spec lexer (spec.md §4.1): skip space and tab, maximal ASCII digit
runs, the six single-character tokens, `LexError` otherwise. -/
def specLexGo : Nat → List Char → Except SpecErr (List SToken)
  | _, [] => .ok []
  | 0, _ :: _ => .error .lexError
  | k + 1, c :: rest =>
    if c.isDigit then do
      let run := (c :: rest).takeWhile Char.isDigit
      let ts ← specLexGo k ((c :: rest).dropWhile Char.isDigit)
      .ok (.int (Calc.decimalValue run) :: ts)
    else if c = ' ' ∨ c = '\t' then specLexGo k rest
    else if c = '+' then do let ts ← specLexGo k rest; .ok (.plus :: ts)
    else if c = '-' then do let ts ← specLexGo k rest; .ok (.minus :: ts)
    else if c = '*' then do let ts ← specLexGo k rest; .ok (.star :: ts)
    else if c = '/' then do let ts ← specLexGo k rest; .ok (.slash :: ts)
    else if c = '(' then do let ts ← specLexGo k rest; .ok (.lparen :: ts)
    else if c = ')' then do let ts ← specLexGo k rest; .ok (.rparen :: ts)
    else .error .lexError

/-- The spec's lexer (spec.md §4.1), with a structural step counter:
each token or skipped character consumes at least one input character,
so the input length bounds the recursion and the wrapper never reaches
the counter's zero case on a nonempty list. -/
def specLex (l : List Char) : Except SpecErr (List SToken) :=
  specLexGo l.length l

/-- Spec AST operators (spec.md §3). -/
inductive SOp where
  | add
  | sub
  | mul
  | div
deriving DecidableEq, Repr

/-- Spec AST (spec.md §3). -/
inductive SAst where
  | lit (n : Nat)
  | binop (op : SOp) (l r : SAst)
deriving DecidableEq, Repr

mutual

/-- `expression := term ( (PLUS|MINUS) term )*`, left-associative. -/
def parseExpressionAux : Nat → List SToken →
    Except SpecErr (SAst × List SToken)
  | 0, _ => .error .unexpectedToken
  | fuel + 1, ts => do
    let r ← parseTermAux fuel ts
    parseExprLoop fuel r.1 r.2

/-- The `( (PLUS|MINUS) term )*` loop, folding to the left. -/
def parseExprLoop : Nat → SAst → List SToken →
    Except SpecErr (SAst × List SToken)
  | 0, _, _ => .error .unexpectedToken
  | fuel + 1, acc, ts =>
    match ts with
    | .plus :: rest => do
        let r ← parseTermAux fuel rest
        parseExprLoop fuel (.binop .add acc r.1) r.2
    | .minus :: rest => do
        let r ← parseTermAux fuel rest
        parseExprLoop fuel (.binop .sub acc r.1) r.2
    | _ => .ok (acc, ts)

/-- `term := factor ( (STAR|SLASH) factor )*`, left-associative. -/
def parseTermAux : Nat → List SToken → Except SpecErr (SAst × List SToken)
  | 0, _ => .error .unexpectedToken
  | fuel + 1, ts => do
    let r ← parseFactorAux fuel ts
    parseTermLoop fuel r.1 r.2

/-- The `( (STAR|SLASH) factor )*` loop, folding to the left. -/
def parseTermLoop : Nat → SAst → List SToken →
    Except SpecErr (SAst × List SToken)
  | 0, _, _ => .error .unexpectedToken
  | fuel + 1, acc, ts =>
    match ts with
    | .star :: rest => do
        let r ← parseFactorAux fuel rest
        parseTermLoop fuel (.binop .mul acc r.1) r.2
    | .slash :: rest => do
        let r ← parseFactorAux fuel rest
        parseTermLoop fuel (.binop .div acc r.1) r.2
    | _ => .ok (acc, ts)

/-- `factor := INTEGER | LPAREN expression RPAREN`; a missing closing
parenthesis is `UnmatchedParen`, any other mismatch `UnexpectedToken`. -/
def parseFactorAux : Nat → List SToken →
    Except SpecErr (SAst × List SToken)
  | 0, _ => .error .unexpectedToken
  | fuel + 1, ts =>
    match ts with
    | .int n :: rest => .ok (.lit n, rest)
    | .lparen :: rest => do
        let r ← parseExpressionAux fuel rest
        match r.2 with
        | .rparen :: rest2 => .ok (r.1, rest2)
        | _ => .error .unmatchedParen
    | _ => .error .unexpectedToken

end

/-- Spec parser entry point (spec.md §4.2): parse one `expression`,
fail with `TrailingInput` when tokens remain. -/
def specParse (ts : List SToken) : Except SpecErr SAst := do
  let r ← parseExpressionAux (2 * ts.length + 2) ts
  match r.2 with
  | [] => .ok r.1
  | _ => .error .trailingInput

/-- Spec evaluator (spec.md §4.3): structural recursion, floor
division, with the zero check before dividing. -/
def evalAst : SAst → Except SpecErr Int
  | .lit n => .ok n
  | .binop op l r => do
    let lv ← evalAst l
    let rv ← evalAst r
    match op with
    | .add => .ok (lv + rv)
    | .sub => .ok (lv - rv)
    | .mul => .ok (lv * rv)
    | .div => if rv = 0 then .error .divByZero else .ok (Int.fdiv lv rv)

/-- The spec's single exposed operation (spec.md §6):
lex, parse, evaluate. -/
def specEvaluate (s : String) : Except SpecErr Int := do
  let ts ← specLex s.data
  let ast ← specParse ts
  evalAst ast

end Spec

namespace Calc

/-- The characters the calc.py lexer recognizes: space, ASCII digits and
the six operator/parenthesis characters. -/
def allowedChar (c : Char) : Bool :=
  c = ' ' || c.isDigit || c = '+' || c = '-' || c = '*' || c = '/' ||
    c = '(' || c = ')'

/-- Standard decimal rendering of a natural number, most significant
digit first, with a structural step counter (one step per digit; any
counter at least the number itself suffices, see
`natToDigitsGo_irrel`). -/
def natToDigitsGo : Nat → Nat → List Char
  | 0, n => [Char.ofNat (48 + n)]
  | k + 1, n =>
    if n < 10 then [Char.ofNat (48 + n)]
    else natToDigitsGo k (n / 10) ++ [Char.ofNat (48 + n % 10)]

/-- Standard decimal rendering of a natural number, most significant
digit first. -/
def natToDigits (n : Nat) : List Char := natToDigitsGo n n

/-- The four binary operators, used to describe operator chains. -/
inductive ChainOp where
  | add
  | sub
  | mul
  | div
deriving DecidableEq, Repr

/-- Surface character of a chain operator. -/
def opChar : ChainOp → Char
  | .add => '+'
  | .sub => '-'
  | .mul => '*'
  | .div => '/'

/-- Token type of a chain operator. -/
def opTokenType : ChainOp → TokenType
  | .add => .PLUS
  | .sub => .MINUS
  | .mul => .MULTIPLICATION
  | .div => .DIVISION

/-- Integer semantics of a chain operator, with `div` as floor
division (Python's `//`). -/
def applyChainOp : ChainOp → Int → Int → Int
  | .add, x, y => x + y
  | .sub, x, y => x - y
  | .mul, x, y => x * y
  | .div, x, y => Int.fdiv x y

/-- Left-folded (left-associative) value of the chain
`a op1 b1 op2 b2 ...`. -/
def chainFold (a : Int) (rest : List (ChainOp × Nat)) : Int :=
  rest.foldl (fun acc p => applyChainOp p.1 acc p.2) a

/-- Rendering of the `op b` pairs of a chain as source text. -/
def tailRender (rest : List (ChainOp × Nat)) : List Char :=
  (rest.map (fun p => opChar p.1 :: natToDigits p.2)).flatten

/-- Source text of the chain `a op1 b1 op2 b2 ...` (no spaces, no
parentheses). -/
def renderChain (a : Nat) (rest : List (ChainOp × Nat)) : List Char :=
  natToDigits a ++ tailRender rest

/-- All operators of the chain are at the additive precedence level. -/
def addSubOnly (rest : List (ChainOp × Nat)) : Prop :=
  ∀ p ∈ rest, p.1 = ChainOp.add ∨ p.1 = ChainOp.sub

/-- All operators of the chain are at the multiplicative precedence
level. -/
def mulDivOnly (rest : List (ChainOp × Nat)) : Prop :=
  ∀ p ∈ rest, p.1 = ChainOp.mul ∨ p.1 = ChainOp.div

/-- No division of the chain has a zero right operand. -/
def noDivZero (rest : List (ChainOp × Nat)) : Prop :=
  ∀ p ∈ rest, p.1 = ChainOp.div → p.2 ≠ 0

/-- Interpreter state in the middle of an operator chain: the current
token is the next operator (or EOF at the end) and the unread text is
the rendered remainder of the chain. -/
def chainInv (st : St) : List (ChainOp × Nat) → Prop
  | [] => st.current.type = .EOF
  | (o, b) :: r =>
      st.current.type = opTokenType o ∧
      st.text.drop st.pos = natToDigits b ++ tailRender r

/-- 0 for an EOF current token, 1 otherwise. -/
def eofBit (t : Token) : Nat := if t.type = .EOF then 0 else 1

/-- Termination measure of the interpreter: twice the unread text plus
one if the current token still has to be consumed. -/
def stMeasure (st : St) : Nat :=
  2 * (st.text.length - st.pos) + eofBit st.current

/-- Specification of a `continue_ar_expr` result relative to its start
state: no fuel exhaustion, and on success the text is unchanged and the
measure has not grown. -/
def NoFuelOutOk (st : St) (res : Except CalcErr (PyValue × St)) : Prop :=
  match res with
  | .error e => e ≠ CalcErr.fuelOut
  | .ok r => r.2.text = st.text ∧ stMeasure r.2 ≤ stMeasure st

/-- Specification of an `ar_expr` result relative to its start state:
no fuel exhaustion, and on success the text is unchanged and the final
measure is strictly below twice the unread text. -/
def NoFuelOutOkAr (st : St) (res : Except CalcErr (PyValue × St)) :
    Prop :=
  match res with
  | .error e => e ≠ CalcErr.fuelOut
  | .ok r => r.2.text = st.text ∧
      stMeasure r.2 + 1 ≤ 2 * (st.text.length - st.pos)

end Calc

namespace Calc

/-! Helper lemmas about positions, digit runs and the lexer. -/

/-- Reading off the character and the rest from a `drop` equation. -/
theorem drop_cons_getD : ∀ (text : List Char) (pos : Nat) {c : Char}
    {l : List Char}, text.drop pos = c :: l →
    text.getD pos '?' = c ∧ text.drop (pos + 1) = l ∧ pos < text.length
  | [], pos, c, l, h => by simp at h
  | d :: t, 0, c, l, h => by
      simp only [List.drop_zero] at h
      cases h
      exact ⟨List.getD_cons_zero, by simp, by simp⟩
  | d :: t, pos + 1, c, l, h => by
      have ih := drop_cons_getD t pos (by simpa using h)
      refine ⟨?_, ?_, ?_⟩
      · simpa [List.getD_cons_succ] using ih.1
      · simpa [List.drop_succ_cons] using ih.2.1
      · have := ih.2.2
        simp only [List.length_cons]
        omega

/-- An empty `drop` means the position is past the end. -/
theorem drop_nil_le {text : List Char} {pos : Nat}
    (h : text.drop pos = []) : text.length ≤ pos :=
  List.drop_eq_nil_iff.mp h

/-- The out-of-range default `?` is what `getD` yields past the end. -/
theorem getD_past_end {text : List Char} {pos : Nat}
    (h : text.length ≤ pos) : text.getD pos '?' = '?' :=
  List.getD_eq_default _ _ h

/-- A digit at a defaulted position is inside the text. -/
theorem isDigit_getD_lt {text : List Char} {pos : Nat}
    (h : (text.getD pos '?').isDigit = true) : pos < text.length := by
  by_contra hge
  rw [getD_past_end (Nat.le_of_not_lt hge)] at h
  exact absurd h (by decide)

/-- The step counter of `natToDigitsGo` is irrelevant as soon as it is
at least the number being rendered. -/
theorem natToDigitsGo_irrel (k : Nat) : ∀ (j n : Nat), n ≤ k → n ≤ j →
    natToDigitsGo k n = natToDigitsGo j n := by
  induction k with
  | zero =>
    intro j n hk hj
    interval_cases n
    cases j with
    | zero => rfl
    | succ j => rw [natToDigitsGo, natToDigitsGo, if_pos (by omega)]
  | succ k ih =>
    intro j n hk hj
    cases j with
    | zero =>
      interval_cases n
      rw [natToDigitsGo, natToDigitsGo, if_pos (by omega)]
    | succ j =>
      rw [natToDigitsGo, natToDigitsGo]
      by_cases h10 : n < 10
      · rw [if_pos h10, if_pos h10]
      · rw [if_neg h10, if_neg h10]
        have hdiv : n / 10 < n := Nat.div_lt_self (by omega) (by omega)
        rw [ih (j := j) (n / 10) (by omega) (by omega)]

/-- The recursive equation of `natToDigits`, as the direct
well-founded definition would state it. -/
theorem natToDigits_eq (n : Nat) :
    natToDigits n =
      if n < 10 then [Char.ofNat (48 + n)]
      else natToDigits (n / 10) ++ [Char.ofNat (48 + n % 10)] := by
  show natToDigitsGo n n = _
  cases n with
  | zero => rw [natToDigitsGo, if_pos (by omega)]
  | succ m =>
    rw [natToDigitsGo]
    by_cases h10 : m + 1 < 10
    · rw [if_pos h10, if_pos h10]
    · rw [if_neg h10, if_neg h10]
      have hdiv : (m + 1) / 10 < m + 1 :=
        Nat.div_lt_self (by omega) (by omega)
      rw [natToDigitsGo_irrel m ((m + 1) / 10) ((m + 1) / 10)
        (by omega) (by omega)]
      rfl

/-- The recursive equation of `readIntegerLoop`, as the direct
well-founded definition would state it. -/
theorem readIntegerLoop_eq (text : List Char) (acc : List Char)
    (pos : Nat) :
    readIntegerLoop text acc pos =
      if pyStrIsdigit acc && (text.getD pos '?').isDigit then
        let acc2 := acc ++ [text.getD pos '?']
        if pos + 1 = text.length then (acc2, pos + 1)
        else readIntegerLoop text acc2 (pos + 1)
      else (acc, pos) := by
  show readIntegerLoopGo (text.length - pos) text acc pos = _
  cases hk : text.length - pos with
  | zero =>
    have hge : text.length ≤ pos := by omega
    rw [readIntegerLoopGo,
      if_neg (by rw [List.getD_eq_default _ _ hge]; simp)]
  | succ k =>
    have hlt : pos < text.length := by
      by_contra hge
      rw [Nat.sub_eq_zero_of_le (Nat.le_of_not_lt hge)] at hk
      exact absurd hk (by omega)
    rw [readIntegerLoopGo]
    show _ = if _ then
        let acc2 := acc ++ [text.getD pos '?']
        if pos + 1 = text.length then (acc2, pos + 1)
        else readIntegerLoopGo (text.length - (pos + 1)) text acc2
          (pos + 1)
      else (acc, pos)
    rw [show text.length - (pos + 1) = k by omega]

/-- The recursive equation of `getNextToken`, as the direct
well-founded definition would state it. -/
theorem getNextToken_eq (text : List Char) (pos : Nat) :
    getNextToken text pos =
      if pos ≥ text.length then .ok (⟨.EOF, .vNone⟩, pos)
      else
        let c := text.getD pos '?'
        if c.isDigit then
          let r := readInteger text pos
          .ok (⟨.INTEGER, .vInt r.1⟩, r.2)
        else if c = '+' then .ok (⟨.PLUS, .vStr ['+']⟩, pos + 1)
        else if c = '-' then .ok (⟨.MINUS, .vStr ['-']⟩, pos + 1)
        else if c = '/' then .ok (⟨.DIVISION, .vStr ['/']⟩, pos + 1)
        else if c = '*' then .ok (⟨.MULTIPLICATION, .vStr ['*']⟩, pos + 1)
        else if c = '(' then .ok (⟨.OPEN_BRACKET, .vStr ['(']⟩, pos + 1)
        else if c = ')' then .ok (⟨.CLOSING_BRACKET, .vStr [')']⟩, pos + 1)
        else if c = ' ' then getNextToken text (pos + 1)
        else .error .lexErr := by
  show getNextTokenGo (text.length - pos) text pos = _
  cases hk : text.length - pos with
  | zero =>
    rw [getNextTokenGo, if_pos (show pos ≥ text.length by omega)]
  | succ k =>
    have hlt : pos < text.length := by
      by_contra hge
      rw [Nat.sub_eq_zero_of_le (Nat.le_of_not_lt hge)] at hk
      exact absurd hk (by omega)
    rw [getNextTokenGo]
    show _ = if pos ≥ text.length then (.ok (⟨.EOF, .vNone⟩, pos) : Except CalcErr (Token × Nat))
      else
        let c := text.getD pos '?'
        if c.isDigit then
          let r := readInteger text pos
          .ok (⟨.INTEGER, .vInt r.1⟩, r.2)
        else if c = '+' then .ok (⟨.PLUS, .vStr ['+']⟩, pos + 1)
        else if c = '-' then .ok (⟨.MINUS, .vStr ['-']⟩, pos + 1)
        else if c = '/' then .ok (⟨.DIVISION, .vStr ['/']⟩, pos + 1)
        else if c = '*' then .ok (⟨.MULTIPLICATION, .vStr ['*']⟩, pos + 1)
        else if c = '(' then .ok (⟨.OPEN_BRACKET, .vStr ['(']⟩, pos + 1)
        else if c = ')' then .ok (⟨.CLOSING_BRACKET, .vStr [')']⟩, pos + 1)
        else if c = ' ' then getNextTokenGo (text.length - (pos + 1)) text (pos + 1)
        else .error .lexErr
    rw [show text.length - (pos + 1) = k by omega]

/-- Every character of a rendered decimal number is an ASCII digit. -/
theorem natToDigits_all_digit (n : Nat) :
    ∀ c ∈ natToDigits n, c.isDigit = true := by
  induction n using Nat.strong_induction_on with
  | _ n ih =>
    rw [natToDigits_eq]
    split
    · intro c hc
      simp only [List.mem_singleton] at hc
      subst hc
      rename_i h
      interval_cases n <;> decide
    · intro c hc
      rw [List.mem_append] at hc
      rcases hc with hc | hc
      · exact ih (n / 10) (Nat.div_lt_self (by omega) (by omega)) c hc
      · simp only [List.mem_singleton] at hc
        subst hc
        have h10 : n % 10 < 10 := Nat.mod_lt _ (by omega)
        obtain ⟨m, hm, hmn⟩ : ∃ m, m < 10 ∧ n % 10 = m :=
          ⟨n % 10, h10, rfl⟩
        rw [hmn]
        interval_cases m <;> decide

/-- Rendering never produces the empty string. -/
theorem natToDigits_ne_nil (n : Nat) : natToDigits n ≠ [] := by
  rw [natToDigits_eq]
  split <;> simp

/-- `decimalValue` splits along an append. -/
theorem decimalValue_append (l1 l2 : List Char) :
    decimalValue (l1 ++ l2) =
      l2.foldl (fun a c => 10 * a + digitVal c) (decimalValue l1) := by
  simp [decimalValue, List.foldl_append]

/-- Reading back a rendered decimal number yields the number. -/
theorem decimalValue_natToDigits (n : Nat) :
    decimalValue (natToDigits n) = n := by
  induction n using Nat.strong_induction_on with
  | _ n ih =>
    rw [natToDigits_eq]
    split
    · rename_i h
      interval_cases n <;> decide
    · rename_i h
      rw [decimalValue_append,
        ih (n / 10) (Nat.div_lt_self (by omega) (by omega))]
      have h10 : n % 10 < 10 := Nat.mod_lt _ (by omega)
      obtain ⟨m, hm, hmn⟩ : ∃ m, m < 10 ∧ n % 10 = m := ⟨n % 10, h10, rfl⟩
      have hdv : digitVal (Char.ofNat (48 + n % 10)) = n % 10 := by
        rw [hmn]; interval_cases m <;> decide
      simp only [List.foldl_cons, List.foldl_nil, hdv]
      omega

end Calc

namespace Calc

/-- Appending a digit keeps `pyStrIsdigit`. -/
theorem pyStrIsdigit_append_digit {acc : List Char} {d : Char}
    (hacc : pyStrIsdigit acc = true) (hd : d.isDigit = true) :
    pyStrIsdigit (acc ++ [d]) = true := by
  simp only [pyStrIsdigit, Bool.and_eq_true, List.all_eq_true] at hacc ⊢
  refine ⟨by simp, ?_⟩
  intro c hc
  rcases List.mem_append.mp hc with hc | hc
  · exact hacc.2 c hc
  · simp only [List.mem_singleton] at hc
    subst hc
    exact hd

/-- `read_integer`'s loop consumes exactly a maximal digit run. -/
theorem readIntegerLoop_run {text : List Char} (ds : List Char) :
    ∀ (pos : Nat) (acc : List Char), pyStrIsdigit acc = true →
    (∀ c ∈ ds, c.isDigit = true) →
    text.drop pos = ds ++ (text.drop (pos + ds.length)) →
    (text.getD (pos + ds.length) '?').isDigit = false →
    readIntegerLoop text acc pos = (acc ++ ds, pos + ds.length) := by
  induction ds with
  | nil =>
    intro pos acc hacc _ _ hb
    rw [readIntegerLoop_eq]
    simp only [List.length_nil, Nat.add_zero] at hb
    rw [if_neg ?_]
    · simp
    · intro hx
      rw [Bool.and_eq_true] at hx
      rw [hx.2] at hb
      exact absurd hb (by decide)
  | cons d ds ih =>
    intro pos acc hacc hds hdrop hb
    obtain ⟨hgd, hdrop', hlt⟩ := drop_cons_getD text pos hdrop
    have hddig : d.isDigit = true := hds d (by simp)
    rw [readIntegerLoop_eq, if_pos (by rw [hgd]; simp [hacc, hddig])]
    simp only [hgd]
    by_cases hend : pos + 1 = text.length
    · have hnil : ds ++ text.drop (pos + (d :: ds).length) = [] := by
        have h1 : text.drop (pos + 1) = [] :=
          List.drop_eq_nil_iff.mpr (by omega)
        rw [h1] at hdrop'
        exact hdrop'.symm
      have hds0 : ds = [] := by
        cases ds with
        | nil => rfl
        | cons e es => simp at hnil
      subst hds0
      rw [if_pos hend]
      simp
    · rw [if_neg hend]
      have hdrop2 : text.drop (pos + 1) =
          ds ++ text.drop (pos + 1 + ds.length) := by
        rw [hdrop']
        have : pos + 1 + ds.length = pos + (d :: ds).length := by
          simp only [List.length_cons]
          omega
        rw [this]
        rfl
      have hb2 : (text.getD (pos + 1 + ds.length) '?').isDigit = false := by
        have : pos + 1 + ds.length = pos + (d :: ds).length := by
          simp only [List.length_cons]
          omega
        rw [this]
        exact hb
      have hrec := ih (pos + 1) (acc ++ [d])
        (pyStrIsdigit_append_digit hacc hddig)
        (fun c hc => hds c (by simp [hc])) hdrop2 hb2
      rw [hrec, Prod.mk.injEq]
      refine ⟨by simp, ?_⟩
      simp only [List.length_cons]
      omega

/-- Dropping past an identified prefix. -/
theorem drop_add_of_drop {text ds rest : List Char} {pos : Nat}
    (h : text.drop pos = ds ++ rest) :
    text.drop (pos + ds.length) = rest := by
  rw [← List.drop_drop, h, List.drop_left]

/-- Prepending the `'0'` seed does not change the decimal value. -/
theorem decimalValue_cons_zero (ds : List Char) :
    decimalValue ('0' :: ds) = decimalValue ds := rfl

/-- The lexer at the end of the input: an EOF token, cursor unmoved. -/
theorem getNextToken_eof {text : List Char} {pos : Nat}
    (h : text.length ≤ pos) :
    getNextToken text pos = .ok (⟨.EOF, .vNone⟩, pos) := by
  rw [getNextToken_eq, if_pos h]

/-- The lexer on a maximal digit run: one INTEGER token carrying the
decimal value, cursor moved past the run. -/
theorem getNextToken_digits {text : List Char} {pos : Nat}
    {ds rest : List Char} (hne : ds ≠ [])
    (hds : ∀ c ∈ ds, c.isDigit = true)
    (hdrop : text.drop pos = ds ++ rest)
    (hb : (text.getD (pos + ds.length) '?').isDigit = false) :
    getNextToken text pos =
      .ok (⟨.INTEGER, .vInt (decimalValue ds)⟩, pos + ds.length) := by
  obtain ⟨d, ds', rfl⟩ := List.exists_cons_of_ne_nil hne
  have hdrop2 : text.drop pos = d :: (ds' ++ rest) := by
    rw [hdrop, List.cons_append]
  obtain ⟨hgd, -, hlt⟩ := drop_cons_getD text pos hdrop2
  have hdd : d.isDigit = true := hds d (by simp)
  have hloop := readIntegerLoop_run (d :: ds') pos ['0'] (by decide) hds
    (by rw [drop_add_of_drop hdrop]; exact hdrop) hb
  have hr : readInteger text pos =
      (decimalValue (d :: ds'), pos + (d :: ds').length) := by
    rw [readInteger, hloop]
    rfl
  rw [getNextToken_eq, if_neg (by omega)]
  simp only [hgd, hdd]
  rw [if_pos trivial, hr]

/-- The lexer on a plus sign. -/
theorem getNextToken_plus {text : List Char} {pos : Nat}
    (h : text.getD pos '?' = '+') :
    getNextToken text pos = .ok (⟨.PLUS, .vStr ['+']⟩, pos + 1) := by
  have hlt : pos < text.length := by
    by_contra hge
    rw [getD_past_end (Nat.le_of_not_lt hge)] at h
    exact absurd h (by decide)
  rw [getNextToken_eq, if_neg (by omega)]
  simp only [h]
  rfl

/-- The lexer on a minus sign. -/
theorem getNextToken_minus {text : List Char} {pos : Nat}
    (h : text.getD pos '?' = '-') :
    getNextToken text pos = .ok (⟨.MINUS, .vStr ['-']⟩, pos + 1) := by
  have hlt : pos < text.length := by
    by_contra hge
    rw [getD_past_end (Nat.le_of_not_lt hge)] at h
    exact absurd h (by decide)
  rw [getNextToken_eq, if_neg (by omega)]
  simp only [h]
  rfl

/-- The lexer on a slash. -/
theorem getNextToken_slash {text : List Char} {pos : Nat}
    (h : text.getD pos '?' = '/') :
    getNextToken text pos = .ok (⟨.DIVISION, .vStr ['/']⟩, pos + 1) := by
  have hlt : pos < text.length := by
    by_contra hge
    rw [getD_past_end (Nat.le_of_not_lt hge)] at h
    exact absurd h (by decide)
  rw [getNextToken_eq, if_neg (by omega)]
  simp only [h]
  rfl

/-- The lexer on a star. -/
theorem getNextToken_star {text : List Char} {pos : Nat}
    (h : text.getD pos '?' = '*') :
    getNextToken text pos =
      .ok (⟨.MULTIPLICATION, .vStr ['*']⟩, pos + 1) := by
  have hlt : pos < text.length := by
    by_contra hge
    rw [getD_past_end (Nat.le_of_not_lt hge)] at h
    exact absurd h (by decide)
  rw [getNextToken_eq, if_neg (by omega)]
  simp only [h]
  rfl

/-- The lexer on an opening bracket. -/
theorem getNextToken_lparen {text : List Char} {pos : Nat}
    (h : text.getD pos '?' = '(') :
    getNextToken text pos =
      .ok (⟨.OPEN_BRACKET, .vStr ['(']⟩, pos + 1) := by
  have hlt : pos < text.length := by
    by_contra hge
    rw [getD_past_end (Nat.le_of_not_lt hge)] at h
    exact absurd h (by decide)
  rw [getNextToken_eq, if_neg (by omega)]
  simp only [h]
  rfl

/-- The lexer on a closing bracket. -/
theorem getNextToken_rparen {text : List Char} {pos : Nat}
    (h : text.getD pos '?' = ')') :
    getNextToken text pos =
      .ok (⟨.CLOSING_BRACKET, .vStr [')']⟩, pos + 1) := by
  have hlt : pos < text.length := by
    by_contra hge
    rw [getD_past_end (Nat.le_of_not_lt hge)] at h
    exact absurd h (by decide)
  rw [getNextToken_eq, if_neg (by omega)]
  simp only [h]
  rfl

/-- The lexer skips a space and continues at the next position. -/
theorem getNextToken_space {text : List Char} {pos : Nat}
    (h : text.getD pos '?' = ' ') :
    getNextToken text pos = getNextToken text (pos + 1) := by
  have hlt : pos < text.length := by
    by_contra hge
    rw [getD_past_end (Nat.le_of_not_lt hge)] at h
    exact absurd h (by decide)
  rw [getNextToken_eq, if_neg (by omega)]
  simp only [h]
  rfl

/-- The lexer errors on an unrecognized character. -/
theorem getNextToken_bad {text : List Char} {pos : Nat}
    (hlt : pos < text.length)
    (h : allowedChar (text.getD pos '?') = false) :
    getNextToken text pos = .error .lexErr := by
  simp only [allowedChar, Bool.or_eq_false_iff,
    decide_eq_false_iff_not] at h
  rw [getNextToken_eq, if_neg (by omega)]
  obtain ⟨⟨⟨⟨⟨⟨⟨hsp, hdig⟩, hp⟩, hm⟩, hst⟩, hsl⟩, hlp⟩, hrp⟩ := h
  simp only [hdig]
  rw [if_neg hp, if_neg hm, if_neg hsl, if_neg hst, if_neg hlp,
    if_neg hrp, if_neg hsp, if_neg (by decide)]

/-- Chain operator characters are not digits. -/
theorem opChar_not_digit (o : ChainOp) : (opChar o).isDigit = false := by
  cases o <;> decide

/-- After a rendered chain remainder, the next character (if any) is an
operator, never a digit. -/
theorem tailRender_boundary {text : List Char} {pos : Nat}
    {r : List (ChainOp × Nat)} (hdrop : text.drop pos = tailRender r) :
    (text.getD pos '?').isDigit = false := by
  cases r with
  | nil =>
    have hle : text.length ≤ pos :=
      drop_nil_le (by simpa [tailRender] using hdrop)
    rw [getD_past_end hle]
    decide
  | cons p r =>
    obtain ⟨o, b⟩ := p
    have hdrop2 : text.drop pos =
        opChar o :: (natToDigits b ++ tailRender r) := by
      simpa [tailRender] using hdrop
    obtain ⟨hgd, -, -⟩ := drop_cons_getD text pos hdrop2
    rw [hgd]
    exact opChar_not_digit o

/-- The lexer on a chain operator character. -/
theorem getNextToken_opChar {text : List Char} {pos : Nat} {o : ChainOp}
    (h : text.getD pos '?' = opChar o) :
    getNextToken text pos =
      .ok (⟨opTokenType o, .vStr [opChar o]⟩, pos + 1) := by
  cases o
  · exact getNextToken_plus h
  · exact getNextToken_minus h
  · exact getNextToken_star h
  · exact getNextToken_slash h

/-- The lexer at the start of an empty chain remainder: EOF. -/
theorem tailRender_nil_fetch {text : List Char} {pos : Nat}
    (hdrop : text.drop pos = tailRender ([] : List (ChainOp × Nat))) :
    getNextToken text pos = .ok (⟨.EOF, .vNone⟩, pos) :=
  getNextToken_eof (drop_nil_le (by simpa [tailRender] using hdrop))

/-- The lexer at the start of a nonempty chain remainder: the operator
token, with the operand and the rest still unread. -/
theorem tailRender_cons_fetch {text : List Char} {pos : Nat}
    {o : ChainOp} {b : Nat} {r' : List (ChainOp × Nat)}
    (hdrop : text.drop pos = tailRender ((o, b) :: r')) :
    getNextToken text pos =
      .ok (⟨opTokenType o, .vStr [opChar o]⟩, pos + 1) ∧
    text.drop (pos + 1) = natToDigits b ++ tailRender r' := by
  have hdrop2 : text.drop pos =
      opChar o :: (natToDigits b ++ tailRender r') := by
    simpa [tailRender] using hdrop
  obtain ⟨hgd, hdrop', -⟩ := drop_cons_getD text pos hdrop2
  exact ⟨getNextToken_opChar hgd, hdrop'⟩

/-- Reading the operand of a chain element. -/
theorem chain_read_int {text : List Char} {pos : Nat} {b : Nat}
    {r : List (ChainOp × Nat)}
    (hdrop : text.drop pos = natToDigits b ++ tailRender r) :
    getNextToken text pos =
      .ok (⟨.INTEGER, .vInt b⟩, pos + (natToDigits b).length) ∧
    text.drop (pos + (natToDigits b).length) = tailRender r := by
  have hrest := drop_add_of_drop hdrop
  have hb : (text.getD (pos + (natToDigits b).length) '?').isDigit =
      false := tailRender_boundary hrest
  have hg := getNextToken_digits (natToDigits_ne_nil b)
    (natToDigits_all_digit b) hdrop hb
  rw [decimalValue_natToDigits] at hg
  exact ⟨hg, hrest⟩

/-- `fetchToken` in terms of the lexer. -/
theorem fetchToken_ok {st : St} {t : Token} {p : Nat}
    (h : getNextToken st.text st.pos = .ok (t, p)) :
    fetchToken st = .ok { st with current := t, pos := p } := by
  rw [fetchToken, h]

/-- `validate_and_advance_token` on a matching token type. -/
theorem validate_ok {st : St} {ty : TokenType} {t : Token} {p : Nat}
    (hty : st.current.type = ty)
    (h : getNextToken st.text st.pos = .ok (t, p)) :
    validateAndAdvanceToken ty st =
      .ok { st with current := t, pos := p } := by
  rw [validateAndAdvanceToken, if_pos hty]
  exact fetchToken_ok h

/-- `validate_and_advance_token` on a mismatch: the parser error. -/
theorem validate_mismatch {st : St} {ty : TokenType}
    (hty : st.current.type ≠ ty) :
    validateAndAdvanceToken ty st = .error .parseErr := by
  rw [validateAndAdvanceToken, if_neg hty]

/-- `continue_ar_expr` at EOF returns the left value unchanged. -/
theorem continueArExpr_eof {f : Nat} {left : Token} {st : St}
    (h : st.current.type = .EOF) (hf : 1 ≤ f) :
    continueArExpr f left st = .ok (left.value, st) := by
  cases f with
  | zero => omega
  | succ f => rw [continueArExpr, if_pos h]

/-- Unfolding one chain element of the fold. -/
theorem chainFold_cons (o : ChainOp) (b : Nat) (r : List (ChainOp × Nat))
    (x : Int) :
    chainFold x ((o, b) :: r) = chainFold (applyChainOp o x b) r := rfl

/-- Adding a constant commutes with folding an additive-level chain. -/
theorem chainFold_addSub_shift {r : List (ChainOp × Nat)}
    (h : addSubOnly r) (x y : Int) :
    x + chainFold y r = chainFold (x + y) r := by
  induction r generalizing y with
  | nil => simp [chainFold]
  | cons p r ih =>
    obtain ⟨o, b⟩ := p
    have htail : addSubOnly r := fun q hq => h q (List.mem_cons_of_mem _ hq)
    rcases h (o, b) (List.mem_cons_self _ _) with ho | ho
    all_goals
      simp only at ho
      subst ho
      rw [chainFold_cons, chainFold_cons, ih htail]
      congr 1
      simp only [applyChainOp]
      ring

/-- Bind of a success in the `Except` monad used by the interpreter. -/
theorem calcBind_ok {α β : Type} (a : α) (f : α → Except CalcErr β) :
    (Except.ok a >>= f) = f a := rfl

/-- Bind of a failure in the `Except` monad used by the interpreter. -/
theorem calcBind_err {α β : Type} (e : CalcErr)
    (f : α → Except CalcErr β) :
    ((Except.error e : Except CalcErr α) >>= f) = .error e := rfl

/-- `pure` in the `Except` monad used by the interpreter. -/
theorem calcPure_def {α : Type} (a : α) :
    (pure a : Except CalcErr α) = .ok a := rfl

/-- `pyAdd` on two integers. -/
theorem pyAdd_int (a b : Int) :
    pyAdd (.vInt a) (.vInt b) = .ok (.vInt (a + b)) := rfl

/-- `pyNeg` on an integer. -/
theorem pyNeg_int (a : Int) : pyNeg (.vInt a) = .ok (.vInt (-a)) := rfl

/-- `pyMul` on two integers. -/
theorem pyMul_int (a b : Int) :
    pyMul (.vInt a) (.vInt b) = .ok (.vInt (a * b)) := rfl

/-- `pyFloorDiv` on two integers, nonzero divisor. -/
theorem pyFloorDiv_int (a : Int) {b : Int} (h : b ≠ 0) :
    pyFloorDiv (.vInt a) (.vInt b) = .ok (.vInt (Int.fdiv a b)) := by
  simp [pyFloorDiv, h]

/-- `pyFloorDiv` of an integer by zero: the `ZeroDivisionError`. -/
theorem pyFloorDiv_zero (a : Int) :
    pyFloorDiv (.vInt a) (.vInt 0) = .error .zeroDivErr := rfl

/-- Fetching the next token at a chain remainder start yields a state
satisfying the chain invariant. -/
theorem chain_fetch {text : List Char} {pos : Nat}
    {r : List (ChainOp × Nat)} (hdrop : text.drop pos = tailRender r) :
    ∃ t p2, getNextToken text pos = .ok (t, p2) ∧
      ∀ st : St, st.text = text → st.pos = p2 → st.current = t →
        chainInv st r := by
  cases r with
  | nil =>
    exact ⟨⟨.EOF, .vNone⟩, pos, tailRender_nil_fetch hdrop,
      fun st h1 h2 h3 => by simp [chainInv, h3]⟩
  | cons p r' =>
    obtain ⟨o2, b2⟩ := p
    obtain ⟨hf, hd⟩ := tailRender_cons_fetch hdrop
    exact ⟨_, _, hf, fun st h1 h2 h3 =>
      ⟨by rw [h3], by rw [h1, h2]; exact hd⟩⟩

/-- Execution of `continue_ar_expr` along a single-precedence operator
chain: the result is the left fold of the chain. -/
theorem continueArExpr_chain (rest : List (ChainOp × Nat)) :
    ∀ (fuel : Nat) (x : Int) (left : Token) (st : St),
    left.value = .vInt x →
    addSubOnly rest ∨ mulDivOnly rest →
    noDivZero rest →
    chainInv st rest →
    2 * rest.length + 1 ≤ fuel →
    ∃ st', continueArExpr fuel left st =
        .ok (.vInt (chainFold x rest), st') ∧
      st'.current.type = .EOF ∧ st'.text = st.text ∧
      st'.openB = st.openB ∧ st'.closedB = st.closedB := by
  induction rest with
  | nil =>
    intro fuel x left st hleft hprec hdiv hinv hfuel
    have hcur : st.current.type = .EOF := hinv
    refine ⟨st, ?_, hcur, rfl, rfl, rfl⟩
    rw [continueArExpr_eof hcur (by omega), hleft]
    rfl
  | cons p rest ih =>
    intro fuel x left st hleft hprec hdiv hinv hfuel
    obtain ⟨o, b⟩ := p
    have hcur : st.current.type = opTokenType o := hinv.1
    have hdrop : st.text.drop st.pos = natToDigits b ++ tailRender rest :=
      hinv.2
    cases fuel with
    | zero => simp at hfuel
    | succ f =>
      have hf1 : 2 * rest.length + 1 ≤ f := by
        simp only [List.length_cons] at hfuel
        omega
      have htaildiv : noDivZero rest :=
        fun q hq hqd => hdiv q (List.mem_cons_of_mem _ hq) hqd
      have htailprec : addSubOnly rest ∨ mulDivOnly rest := by
        rcases hprec with hp | hp
        · exact Or.inl (fun q hq => hp q (List.mem_cons_of_mem _ hq))
        · exact Or.inr (fun q hq => hp q (List.mem_cons_of_mem _ hq))
      obtain ⟨hread, hrest⟩ := chain_read_int hdrop
      have hv1 := @validate_ok st _ _ _ hcur hread
      obtain ⟨t3, p3, hf3, hinv3⟩ := chain_fetch (r := rest) hrest
      have hv2 := @validate_ok { st with current := (⟨.INTEGER, .vInt b⟩ : Token), pos := st.pos + (natToDigits b).length } .INTEGER _ _ rfl hf3
      have hinv3' : chainInv { st with current := t3, pos := p3 } rest :=
        hinv3 _ rfl rfl rfl
      cases o with
      | add =>
        simp only [opTokenType] at hv1 hcur
        simp only at hv2
        have haddsub : addSubOnly rest := by
          rcases hprec with hp | hp
          · exact fun q hq => hp q (List.mem_cons_of_mem _ hq)
          · exact absurd (hp (ChainOp.add, b) (List.mem_cons_self _ _))
              (by simp)
        obtain ⟨st4, hco, heof4, htext4, hob4, hcb4⟩ :=
          ih f b ⟨.INTEGER, .vInt b⟩ { st with current := t3, pos := p3 }
            rfl htailprec htaildiv hinv3' hf1
        have htail : ∀ l : Token, continueArExpr f l st4 =
            .ok (l.value, st4) :=
          fun l => continueArExpr_eof heof4 (by omega)
        refine ⟨st4, ?_, heof4, htext4, hob4, hcb4⟩
        rw [continueArExpr]
        simp only [hcur]
        rw [if_neg (by decide)]
        simp only [reduceIte, hv1, calcBind_ok, hv2, calcPure_def, hco,
          hleft, pyAdd_int, htail]
        rw [chainFold_cons]
        simp only [applyChainOp]
        rw [chainFold_addSub_shift haddsub]
      | sub =>
        simp only [opTokenType] at hv1 hcur
        simp only at hv2
        have haddsub : addSubOnly rest := by
          rcases hprec with hp | hp
          · exact fun q hq => hp q (List.mem_cons_of_mem _ hq)
          · exact absurd (hp (ChainOp.sub, b) (List.mem_cons_self _ _))
              (by simp)
        obtain ⟨st4, hco, heof4, htext4, hob4, hcb4⟩ :=
          ih f (-(b : Int)) ⟨.INTEGER, .vInt (-(b : Int))⟩
            { st with current := t3, pos := p3 }
            rfl htailprec htaildiv hinv3' hf1
        have htail : ∀ l : Token, continueArExpr f l st4 =
            .ok (l.value, st4) :=
          fun l => continueArExpr_eof heof4 (by omega)
        refine ⟨st4, ?_, heof4, htext4, hob4, hcb4⟩
        rw [continueArExpr]
        simp only [hcur]
        rw [if_neg (by decide)]
        simp only [reduceIte, reduceCtorEq, if_false, hv1, calcBind_ok,
          hv2, calcPure_def, pyNeg_int, hco, hleft, pyAdd_int, htail]
        rw [chainFold_cons]
        simp only [applyChainOp]
        rw [chainFold_addSub_shift haddsub]
        have hxy : x + -(b : Int) = x - b := by ring
        rw [hxy]
      | mul =>
        simp only [opTokenType] at hv1 hcur
        simp only at hv2
        obtain ⟨st4, hco, heof4, htext4, hob4, hcb4⟩ :=
          ih f (x * b) ⟨.INTEGER, .vInt (x * b)⟩
            { st with current := t3, pos := p3 }
            rfl htailprec htaildiv hinv3' hf1
        refine ⟨st4, ?_, heof4, htext4, hob4, hcb4⟩
        rw [continueArExpr]
        simp only [hcur]
        rw [if_neg (by decide)]
        simp only [reduceIte, reduceCtorEq, if_false, hv1, calcBind_ok,
          hv2, calcPure_def, hleft, pyMul_int, hco]
        rw [chainFold_cons]
        simp only [applyChainOp]
      | div =>
        simp only [opTokenType] at hv1 hcur
        simp only at hv2
        have hbne : (b : Int) ≠ 0 := by
          have := hdiv (ChainOp.div, b) (List.mem_cons_self _ _) rfl
          exact_mod_cast this
        obtain ⟨st4, hco, heof4, htext4, hob4, hcb4⟩ :=
          ih f (Int.fdiv x b) ⟨.INTEGER, .vInt (Int.fdiv x b)⟩
            { st with current := t3, pos := p3 }
            rfl htailprec htaildiv hinv3' hf1
        refine ⟨st4, ?_, heof4, htext4, hob4, hcb4⟩
        rw [continueArExpr]
        simp only [hcur]
        rw [if_neg (by decide)]
        simp only [reduceIte, reduceCtorEq, if_false, hv1, calcBind_ok,
          hv2, calcPure_def, hleft, pyFloorDiv_int _ hbne, hco]
        rw [chainFold_cons]
        simp only [applyChainOp]

/-- Each chain element renders to at least two characters. -/
theorem tailRender_length_ge (rest : List (ChainOp × Nat)) :
    2 * rest.length ≤ (tailRender rest).length := by
  induction rest with
  | nil => simp [tailRender]
  | cons p r ih =>
    obtain ⟨o, b⟩ := p
    have hb : 1 ≤ (natToDigits b).length :=
      List.length_pos.mpr (natToDigits_ne_nil b)
    have : tailRender ((o, b) :: r) =
        (opChar o :: natToDigits b) ++ tailRender r := by
      simp [tailRender]
    rw [this]
    simp only [List.length_append, List.length_cons]
    omega

/-- Evaluation of a rendered single-precedence chain is its left fold:
the top-level wrapper around `continueArExpr_chain`. -/
theorem calcEvaluate_chain (a : Nat) (rest : List (ChainOp × Nat))
    (hprec : addSubOnly rest ∨ mulDivOnly rest)
    (hdiv : noDivZero rest) :
    calcEvaluate (String.mk (renderChain a rest)) =
      .ok (.vInt (chainFold a rest)) := by
  obtain ⟨hread, hrest⟩ := @chain_read_int (renderChain a rest)
    0 a rest (by rw [List.drop_zero]; rfl)
  rw [Nat.zero_add] at hread hrest
  obtain ⟨t3, p3, hf3, hinv3⟩ := chain_fetch hrest
  have hlen : 1 + 2 * rest.length ≤ (renderChain a rest).length := by
    have h1 : 1 ≤ (natToDigits a).length :=
      List.length_pos.mpr (natToDigits_ne_nil a)
    have h2 := tailRender_length_ge rest
    simp only [renderChain, List.length_append]
    omega
  obtain ⟨st4, hco, heof4, htext4, hob4, hcb4⟩ :=
    continueArExpr_chain rest (2 * (renderChain a rest).length + 1) a
      ⟨.INTEGER, .vInt a⟩
      { text := renderChain a rest, pos := p3, current := t3,
        openB := 0, closedB := 0 }
      rfl hprec hdiv (hinv3 _ rfl rfl rfl) (by omega)
  have hfetch : fetchToken (initSt (renderChain a rest)) = .ok ({ text := renderChain a rest, pos := (natToDigits a).length, current := (⟨.INTEGER, .vInt a⟩ : Token), openB := 0, closedB := 0 } : St) :=
    @fetchToken_ok (initSt (renderChain a rest)) _ _ hread
  have hv2 := @validate_ok ({ text := renderChain a rest, pos := (natToDigits a).length, current := (⟨.INTEGER, .vInt a⟩ : Token), openB := 0, closedB := 0 } : St) .INTEGER _ _ rfl hf3
  rw [calcEvaluate]
  have hfuel : calcFuel (String.mk (renderChain a rest)).data =
      2 * (renderChain a rest).length + 1 + 1 := rfl
  rw [hfuel]
  rw [arExpr]
  simp only [reduceIte, reduceCtorEq, if_false, hfetch, calcBind_ok,
    hv2, hco]
  simp only [hob4, hcb4]
  rw [if_neg (by simp)]

/-- The cursor result of `read_integer`'s loop never moves backwards. -/
theorem readIntegerLoop_le (k : Nat) :
    ∀ (text acc : List Char) (pos : Nat), text.length - pos ≤ k →
    pos ≤ (readIntegerLoop text acc pos).2 := by
  induction k with
  | zero =>
    intro text acc pos hk
    rw [readIntegerLoop_eq]
    split
    · rename_i hcond
      rw [Bool.and_eq_true] at hcond
      have := isDigit_getD_lt hcond.2
      omega
    · simp
  | succ k ih =>
    intro text acc pos hk
    rw [readIntegerLoop_eq]
    split
    · rename_i hcond
      rw [Bool.and_eq_true] at hcond
      have hlt := isDigit_getD_lt hcond.2
      split
      · simp
      · have := ih text (acc ++ [text.getD pos '?']) (pos + 1) (by omega)
        simp only []
        omega
    · simp

/-- The cursor result of `read_integer`'s loop stays within the text. -/
theorem readIntegerLoop_within (k : Nat) :
    ∀ (text acc : List Char) (q : Nat), text.length - q ≤ k →
    q ≤ text.length → (readIntegerLoop text acc q).2 ≤ text.length := by
  induction k with
  | zero =>
    intro text acc q hk hq
    rw [readIntegerLoop_eq]
    split
    · rename_i hcond
      rw [Bool.and_eq_true] at hcond
      have := isDigit_getD_lt hcond.2
      omega
    · simpa
  | succ k ihk =>
    intro text acc q hk hq
    rw [readIntegerLoop_eq]
    split
    · rename_i hcond
      rw [Bool.and_eq_true] at hcond
      have := isDigit_getD_lt hcond.2
      split
      · rename_i hend
        exact le_of_eq hend
      · exact ihk text _ (q + 1) (by omega) (by omega)
    · simpa

/-- In the digit branch the cursor strictly advances and stays within
the text. -/
theorem readInteger_advance {text : List Char} {pos : Nat}
    (hc : (text.getD pos '?').isDigit = true) :
    pos + 1 ≤ (readInteger text pos).2 ∧
    (readInteger text pos).2 ≤ text.length := by
  have hlt := isDigit_getD_lt hc
  have hcond : (pyStrIsdigit ['0'] && (text.getD pos '?').isDigit)
      = true := by
    rw [hc]
    decide
  rw [readInteger]
  simp only []
  rw [readIntegerLoop_eq, if_pos hcond]
  split
  · rename_i hend
    exact ⟨Nat.le_refl _, le_of_eq hend⟩
  · have h1 := readIntegerLoop_le (text.length - (pos + 1)) text
      (['0'] ++ [text.getD pos '?']) (pos + 1) (by omega)
    have h2 := readIntegerLoop_within (text.length - (pos + 1)) text
      (['0'] ++ [text.getD pos '?']) (pos + 1) (by omega) (by omega)
    exact ⟨h1, h2⟩

/-- The digit branch of the lexer, in terms of `read_integer`. -/
theorem getNextToken_digit_case {text : List Char} {pos : Nat}
    (hlt : pos < text.length)
    (hc : (text.getD pos '?').isDigit = true) :
    getNextToken text pos =
      .ok (⟨.INTEGER, .vInt (readInteger text pos).1⟩,
        (readInteger text pos).2) := by
  rw [getNextToken_eq, if_neg (by omega)]
  simp only [hc]
  rfl

/-- Lexer result specification: a failure is always the lexer error,
and a success strictly shrinks the interpreter measure contribution. -/
theorem getNextToken_spec (k : Nat) :
    ∀ (text : List Char) (pos : Nat), text.length - pos ≤ k →
    (match getNextToken text pos with
     | .error e => e = .lexErr
     | .ok r => 2 * (text.length - r.2) + eofBit r.1 ≤
         2 * (text.length - pos)) := by
  induction k with
  | zero =>
    intro text pos hk
    rw [getNextToken_eof (by omega)]
    simp [eofBit]
  | succ k ih =>
    intro text pos hk
    by_cases hlen : text.length ≤ pos
    · rw [getNextToken_eof hlen]
      simp [eofBit]
    · have hlt : pos < text.length := by omega
      by_cases hdig : (text.getD pos '?').isDigit = true
      · rw [getNextToken_digit_case hlt hdig]
        have hadv := readInteger_advance hdig
        simp only [eofBit]
        simp only [reduceCtorEq, if_false]
        omega
      · by_cases hp : text.getD pos '?' = '+'
        · rw [getNextToken_plus hp]
          simp [eofBit]
          omega
        · by_cases hm : text.getD pos '?' = '-'
          · rw [getNextToken_minus hm]
            simp [eofBit]
            omega
          · by_cases hsl : text.getD pos '?' = '/'
            · rw [getNextToken_slash hsl]
              simp [eofBit]
              omega
            · by_cases hst : text.getD pos '?' = '*'
              · rw [getNextToken_star hst]
                simp [eofBit]
                omega
              · by_cases hlp : text.getD pos '?' = '('
                · rw [getNextToken_lparen hlp]
                  simp [eofBit]
                  omega
                · by_cases hrp : text.getD pos '?' = ')'
                  · rw [getNextToken_rparen hrp]
                    simp [eofBit]
                    omega
                  · by_cases hsp : text.getD pos '?' = ' '
                    · rw [getNextToken_space hsp]
                      have hrec := ih text (pos + 1) (by omega)
                      cases hg : getNextToken text (pos + 1) with
                      | error e =>
                        rw [hg] at hrec
                        simpa using hrec
                      | ok r =>
                        rw [hg] at hrec
                        simp only [] at hrec ⊢
                        omega
                    · have hbad : allowedChar (text.getD pos '?') =
                          false := by
                        simp only [allowedChar, Bool.or_eq_false_iff,
                          decide_eq_false_iff_not]
                        exact ⟨⟨⟨⟨⟨⟨⟨hsp,
                          (Bool.not_eq_true _) ▸ hdig⟩, hp⟩, hm⟩,
                          hst⟩, hsl⟩, hlp⟩, hrp⟩
                      rw [getNextToken_bad hlt hbad]

/-- A `fetchToken` failure is the lexer error; success keeps text and
bracket counters and does not grow the measure beyond the unread text. -/
theorem fetchToken_spec (st : St) :
    (match fetchToken st with
     | .error e => e = CalcErr.lexErr
     | .ok st1 => st1.text = st.text ∧ st1.openB = st.openB ∧
         st1.closedB = st.closedB ∧
         stMeasure st1 ≤ 2 * (st.text.length - st.pos)) := by
  have hspec := getNextToken_spec (st.text.length - st.pos) st.text
    st.pos (Nat.le_refl _)
  rw [fetchToken]
  cases hg : getNextToken st.text st.pos with
  | error e =>
    rw [hg] at hspec
    exact hspec
  | ok r =>
    rw [hg] at hspec
    exact ⟨rfl, rfl, rfl, hspec⟩

/-- A `validate_and_advance_token` failure is a lexer or parser error;
success keeps text and brackets and bounds the measure. -/
theorem validate_spec (ty : TokenType) (st : St) :
    (match validateAndAdvanceToken ty st with
     | .error e => e = CalcErr.lexErr ∨ e = CalcErr.parseErr
     | .ok st1 => st1.text = st.text ∧ st1.openB = st.openB ∧
         st1.closedB = st.closedB ∧
         stMeasure st1 ≤ 2 * (st.text.length - st.pos)) := by
  rw [validateAndAdvanceToken]
  by_cases hty : st.current.type = ty
  · rw [if_pos hty]
    have hspec := fetchToken_spec st
    cases hf : fetchToken st with
    | error e =>
      rw [hf] at hspec
      exact Or.inl hspec
    | ok st1 =>
      rw [hf] at hspec
      exact hspec
  · rw [if_neg hty]
    exact Or.inr rfl

/-- `pyAdd` only fails with a `TypeError`. -/
theorem pyAdd_err {a b : PyValue} {e : CalcErr}
    (h : pyAdd a b = .error e) : e = .typeErr := by
  cases a <;> cases b <;> simp [pyAdd] at h <;> exact h.symm

/-- `pyNeg` only fails with a `TypeError`. -/
theorem pyNeg_err {a : PyValue} {e : CalcErr}
    (h : pyNeg a = .error e) : e = .typeErr := by
  cases a <;> simp [pyNeg] at h <;> exact h.symm

/-- `pyMul` only fails with a `TypeError`. -/
theorem pyMul_err {a b : PyValue} {e : CalcErr}
    (h : pyMul a b = .error e) : e = .typeErr := by
  cases a <;> cases b <;> simp [pyMul] at h <;> exact h.symm

/-- `pyFloorDiv` only fails with a `TypeError` or a
`ZeroDivisionError`. -/
theorem pyFloorDiv_err {a b : PyValue} {e : CalcErr}
    (h : pyFloorDiv a b = .error e) :
    e = .typeErr ∨ e = .zeroDivErr := by
  cases a <;> cases b <;> simp [pyFloorDiv] at h
  case vInt.vInt x y =>
    split at h
    · simp at h
      exact Or.inr h.symm
    · simp at h
  all_goals exact Or.inl h.symm

/-- The PLUS dispatch arm of `continue_ar_expr` preserves the result
specification. -/
theorem plusDispatch_spec (f : Nat) (left right : Token) (st2 : St)
    (ihC : ∀ (l : Token) (s : St), stMeasure s + 1 ≤ f →
      NoFuelOutOk s (continueArExpr f l s))
    (hμf : stMeasure st2 + 1 ≤ f) :
    NoFuelOutOk st2 (do
      let r ← continueArExpr f ⟨.INTEGER, right.value⟩ st2
      let result ← pyAdd left.value r.1
      continueArExpr f ⟨.INTEGER, result⟩ r.2) := by
  have h1 := ihC ⟨.INTEGER, right.value⟩ st2 hμf
  cases hin : continueArExpr f ⟨.INTEGER, right.value⟩ st2 with
  | error e =>
    rw [hin] at h1
    simp only [hin, calcBind_err]
    exact h1
  | ok r =>
    rw [hin] at h1
    obtain ⟨ht, hμ⟩ := h1
    simp only [hin, calcBind_ok]
    cases hadd : pyAdd left.value r.1 with
    | error e =>
      simp only [hadd, calcBind_err]
      have he := pyAdd_err hadd
      subst he
      show CalcErr.typeErr ≠ CalcErr.fuelOut
      decide
    | ok v =>
      simp only [hadd, calcBind_ok]
      have h2 := ihC ⟨.INTEGER, v⟩ r.2 (by omega)
      cases hres : continueArExpr f ⟨.INTEGER, v⟩ r.2 with
      | error e =>
        rw [hres] at h2
        exact h2
      | ok r3 =>
        rw [hres] at h2
        obtain ⟨ht3, hμ3⟩ := h2
        exact ⟨by rw [ht3, ht], by omega⟩

/-- The MINUS dispatch arm of `continue_ar_expr` preserves the result
specification. -/
theorem minusDispatch_spec (f : Nat) (left right : Token) (st2 : St)
    (ihC : ∀ (l : Token) (s : St), stMeasure s + 1 ≤ f →
      NoFuelOutOk s (continueArExpr f l s))
    (hμf : stMeasure st2 + 1 ≤ f) :
    NoFuelOutOk st2 (do
      let nv ← pyNeg right.value
      let r ← continueArExpr f ⟨.INTEGER, nv⟩ st2
      let result ← pyAdd left.value r.1
      continueArExpr f ⟨.INTEGER, result⟩ r.2) := by
  cases hneg : pyNeg right.value with
  | error e =>
    simp only [hneg, calcBind_err]
    have he := pyNeg_err hneg
    subst he
    show CalcErr.typeErr ≠ CalcErr.fuelOut
    decide
  | ok nv =>
    simp only [hneg, calcBind_ok]
    have h1 := ihC ⟨.INTEGER, nv⟩ st2 hμf
    cases hin : continueArExpr f ⟨.INTEGER, nv⟩ st2 with
    | error e =>
      rw [hin] at h1
      simp only [hin, calcBind_err]
      exact h1
    | ok r =>
      rw [hin] at h1
      obtain ⟨ht, hμ⟩ := h1
      simp only [hin, calcBind_ok]
      cases hadd : pyAdd left.value r.1 with
      | error e =>
        simp only [hadd, calcBind_err]
        have he := pyAdd_err hadd
        subst he
        show CalcErr.typeErr ≠ CalcErr.fuelOut
        decide
      | ok v =>
        simp only [hadd, calcBind_ok]
        have h2 := ihC ⟨.INTEGER, v⟩ r.2 (by omega)
        cases hres : continueArExpr f ⟨.INTEGER, v⟩ r.2 with
        | error e =>
          rw [hres] at h2
          exact h2
        | ok r3 =>
          rw [hres] at h2
          obtain ⟨ht3, hμ3⟩ := h2
          exact ⟨by rw [ht3, ht], by omega⟩

/-- The MULTIPLICATION dispatch arm of `continue_ar_expr` preserves
the result specification. -/
theorem mulDispatch_spec (f : Nat) (left right : Token) (st2 : St)
    (ihC : ∀ (l : Token) (s : St), stMeasure s + 1 ≤ f →
      NoFuelOutOk s (continueArExpr f l s))
    (hμf : stMeasure st2 + 1 ≤ f) :
    NoFuelOutOk st2 (do
      let result ← pyMul left.value right.value
      continueArExpr f ⟨.INTEGER, result⟩ st2) := by
  cases hm : pyMul left.value right.value with
  | error e =>
    simp only [hm, calcBind_err]
    have he := pyMul_err hm
    subst he
    show CalcErr.typeErr ≠ CalcErr.fuelOut
    decide
  | ok v =>
    simp only [hm, calcBind_ok]
    exact ihC ⟨.INTEGER, v⟩ st2 hμf

/-- The final (DIVISION and fall-through) dispatch arm of
`continue_ar_expr` preserves the result specification. -/
theorem divDispatch_spec (f : Nat) (left right : Token) (st2 : St)
    (ihC : ∀ (l : Token) (s : St), stMeasure s + 1 ≤ f →
      NoFuelOutOk s (continueArExpr f l s))
    (hμf : stMeasure st2 + 1 ≤ f) :
    NoFuelOutOk st2 (do
      let result ← pyFloorDiv left.value right.value
      continueArExpr f ⟨.INTEGER, result⟩ st2) := by
  cases hm : pyFloorDiv left.value right.value with
  | error e =>
    simp only [hm, calcBind_err]
    rcases pyFloorDiv_err hm with he | he <;> subst he <;>
      · show _ ≠ CalcErr.fuelOut
        decide
  | ok v =>
    simp only [hm, calcBind_ok]
    exact ihC ⟨.INTEGER, v⟩ st2 hμf

/-- Transporting the result specification along a smaller start
state. -/
theorem NoFuelOutOk_mono {st st2 : St}
    {res : Except CalcErr (PyValue × St)} (h : NoFuelOutOk st2 res)
    (ht : st2.text = st.text) (hμ : stMeasure st2 ≤ stMeasure st) :
    NoFuelOutOk st res := by
  cases res with
  | error e => exact h
  | ok r =>
    obtain ⟨h1, h2⟩ := h
    exact ⟨by rw [h1, ht], by omega⟩

/-- The central fuel specification: with fuel at least the measure,
neither interpreter function ever exhausts its fuel, and a successful
run preserves the text and does not grow the measure. -/
theorem interp_fuel_spec (fuel : Nat) :
    (∀ st : St, 2 * (st.text.length - st.pos) + 1 ≤ fuel →
      NoFuelOutOkAr st (arExpr fuel st)) ∧
    (∀ (left : Token) (st : St), stMeasure st + 1 ≤ fuel →
      NoFuelOutOk st (continueArExpr fuel left st)) := by
  induction fuel with
  | zero =>
    constructor
    · intro st h
      exact absurd h (by omega)
    · intro left st h
      exact absurd h (by omega)
  | succ f ih =>
    obtain ⟨ihA, ihC⟩ := ih
    constructor
    · intro st hfuel
      rw [arExpr]
      have hfs := fetchToken_spec st
      cases hf : fetchToken st with
      | error e =>
        rw [hf] at hfs
        simp only [hf, calcBind_err]
        subst hfs
        show CalcErr.lexErr ≠ CalcErr.fuelOut
        decide
      | ok st1 =>
        rw [hf] at hfs
        obtain ⟨ht1, ho1, hc1, hm1⟩ := hfs
        have hlen1 : st1.text.length = st.text.length := by rw [ht1]
        simp only [hf, calcBind_ok]
        by_cases hopen : st1.current.type = .OPEN_BRACKET
        · rw [if_pos hopen]
          have hμst1 : stMeasure st1 =
              2 * (st1.text.length - st1.pos) + 1 := by
            simp [stMeasure, eofBit, hopen]
          have hA := ihA { st1 with openB := st1.openB + 1 }
            (show 2 * (st1.text.length - st1.pos) + 1 ≤ f by omega)
          cases hA2 : arExpr f { st1 with openB := st1.openB + 1 } with
          | error e =>
            rw [hA2] at hA
            exact hA
          | ok r =>
            rw [hA2] at hA
            have htr : r.2.text = st1.text := hA.1
            have hμr : stMeasure r.2 + 1 ≤
                2 * (st1.text.length - st1.pos) := hA.2
            refine ⟨by rw [htr, ht1], by omega⟩
        · rw [if_neg hopen]
          have hvs := validate_spec .INTEGER st1
          cases hv : validateAndAdvanceToken .INTEGER st1 with
          | error e =>
            rw [hv] at hvs
            simp only [hv, calcBind_err]
            intro hcc
            rcases hvs with he | he <;> subst he <;>
              exact absurd hcc (by decide)
          | ok st2 =>
            rw [hv] at hvs
            obtain ⟨ht2, ho2, hc2, hm2⟩ := hvs
            simp only [hv, calcBind_ok]
            have hty : st1.current.type = .INTEGER := by
              by_contra hne
              rw [validate_mismatch hne] at hv
              exact absurd hv (by simp)
            have hμst1 : stMeasure st1 =
                2 * (st1.text.length - st1.pos) + 1 := by
              simp [stMeasure, eofBit, hty]
            have hC := ihC st1.current st2 (by omega)
            cases hc3 : continueArExpr f st1.current st2 with
            | error e =>
              rw [hc3] at hC
              simp only [hc3, calcBind_err]
              exact hC
            | ok r =>
              rw [hc3] at hC
              obtain ⟨htr, hμr⟩ := hC
              simp only [hc3, calcBind_ok]
              by_cases hbr : r.2.openB ≠ r.2.closedB
              · rw [if_pos hbr]
                show CalcErr.parseErr ≠ CalcErr.fuelOut
                decide
              · rw [if_neg hbr]
                refine ⟨by rw [htr, ht2, ht1], by omega⟩
    · intro left st hfuel
      rw [continueArExpr]
      by_cases heof : st.current.type = .EOF
      · rw [if_pos heof]
        exact ⟨rfl, Nat.le_refl _⟩
      · rw [if_neg heof]
        have heb0 : eofBit st.current = 1 := by simp [eofBit, heof]
        have hμst : stMeasure st =
            2 * (st.text.length - st.pos) + 1 := by
          simp [stMeasure, heb0]
        by_cases h1 : st.current.type = .PLUS
        · rw [if_pos h1]
          have hvs := validate_spec .PLUS st
          cases hv : validateAndAdvanceToken .PLUS st with
          | error e =>
            rw [hv] at hvs
            simp only [hv, calcBind_err]
            intro hcc
            rcases hvs with he | he <;> subst he <;>
              exact absurd hcc (by decide)
          | ok st1 =>
            rw [hv] at hvs
            obtain ⟨ht1, ho1, hc1, hm1⟩ := hvs
            simp only [hv, calcBind_ok]
            have hμ1 : stMeasure st1 + 1 ≤ stMeasure st := by omega
            cases hcur1 : st1.current.type with
            | INTEGER =>
              have hvs2 := validate_spec .INTEGER st1
              cases hv2 : validateAndAdvanceToken .INTEGER st1 with
              | error e =>
                rw [hv2] at hvs2
                simp only [hv2, calcBind_err]
                intro hcc
                rcases hvs2 with he | he <;> subst he <;>
                  exact absurd hcc (by decide)
              | ok st2 =>
                rw [hv2] at hvs2
                obtain ⟨ht2, ho2, hc2, hm2⟩ := hvs2
                have hμst1 : stMeasure st1 =
                    2 * (st1.text.length - st1.pos) + 1 := by
                  simp [stMeasure, eofBit, hcur1]
                simp only [hv2, calcBind_ok, calcPure_def, h1, reduceIte,
                  reduceCtorEq, if_false]
                exact NoFuelOutOk_mono
                  (plusDispatch_spec f left st1.current st2 ihC (by omega))
                  (by rw [ht2, ht1]) (by omega)
            | OPEN_BRACKET =>
              have hμst1 : stMeasure st1 =
                  2 * (st1.text.length - st1.pos) + 1 := by
                simp [stMeasure, eofBit, hcur1]
              have hA := ihA { st1 with openB := st1.openB + 1 }
                (show 2 * (st1.text.length - st1.pos) + 1 ≤ f by omega)
              cases hA2 : arExpr f { st1 with openB := st1.openB + 1 } with
              | error e =>
                rw [hA2] at hA
                simp only [hA2, calcBind_err]
                exact hA
              | ok r =>
                rw [hA2] at hA
                have htr : r.2.text = st1.text := hA.1
                have hμr : stMeasure r.2 + 1 ≤
                    2 * (st1.text.length - st1.pos) := hA.2
                simp only [hA2, calcBind_ok, calcPure_def, h1, reduceIte,
                  reduceCtorEq, if_false]
                exact NoFuelOutOk_mono
                  (plusDispatch_spec f left ⟨.INTEGER, r.1⟩ r.2 ihC (by omega))
                  (by rw [htr, ht1]) (by omega)
            | CLOSING_BRACKET =>
              have hvs2 := validate_spec .CLOSING_BRACKET st1
              cases hv2 : validateAndAdvanceToken .CLOSING_BRACKET st1 with
              | error e =>
                rw [hv2] at hvs2
                simp only [hv2, calcBind_err]
                intro hcc
                rcases hvs2 with he | he <;> subst he <;>
                  exact absurd hcc (by decide)
              | ok st2 =>
                rw [hv2] at hvs2
                obtain ⟨ht2, ho2, hc2, hm2⟩ := hvs2
                have hμst1 : stMeasure st1 =
                    2 * (st1.text.length - st1.pos) + 1 := by
                  simp [stMeasure, eofBit, hcur1]
                simp only [hv2, calcBind_ok, calcPure_def]
                refine ⟨?_, ?_⟩
                · show st2.text = st.text
                  rw [ht2, ht1]
                · show stMeasure st2 ≤ stMeasure st
                  omega
            | EOF =>
              simp only [calcPure_def, calcBind_ok, h1, reduceIte,
                reduceCtorEq, if_false]
              exact NoFuelOutOk_mono
                (plusDispatch_spec f left st1.current st1 ihC (by omega))
                ht1 (by omega)
            | PLUS =>
              simp only [calcPure_def, calcBind_ok, h1, reduceIte,
                reduceCtorEq, if_false]
              exact NoFuelOutOk_mono
                (plusDispatch_spec f left st1.current st1 ihC (by omega))
                ht1 (by omega)
            | MINUS =>
              simp only [calcPure_def, calcBind_ok, h1, reduceIte,
                reduceCtorEq, if_false]
              exact NoFuelOutOk_mono
                (plusDispatch_spec f left st1.current st1 ihC (by omega))
                ht1 (by omega)
            | MULTIPLICATION =>
              simp only [calcPure_def, calcBind_ok, h1, reduceIte,
                reduceCtorEq, if_false]
              exact NoFuelOutOk_mono
                (plusDispatch_spec f left st1.current st1 ihC (by omega))
                ht1 (by omega)
            | DIVISION =>
              simp only [calcPure_def, calcBind_ok, h1, reduceIte,
                reduceCtorEq, if_false]
              exact NoFuelOutOk_mono
                (plusDispatch_spec f left st1.current st1 ihC (by omega))
                ht1 (by omega)
        · by_cases h2 : st.current.type = .MINUS
          · rw [if_neg h1, if_pos h2]
            have hvs := validate_spec .MINUS st
            cases hv : validateAndAdvanceToken .MINUS st with
            | error e =>
              rw [hv] at hvs
              simp only [hv, calcBind_err]
              intro hcc
              rcases hvs with he | he <;> subst he <;>
                exact absurd hcc (by decide)
            | ok st1 =>
              rw [hv] at hvs
              obtain ⟨ht1, ho1, hc1, hm1⟩ := hvs
              simp only [hv, calcBind_ok]
              have hμ1 : stMeasure st1 + 1 ≤ stMeasure st := by omega
              cases hcur1 : st1.current.type with
              | INTEGER =>
                have hvs2 := validate_spec .INTEGER st1
                cases hv2 : validateAndAdvanceToken .INTEGER st1 with
                | error e =>
                  rw [hv2] at hvs2
                  simp only [hv2, calcBind_err]
                  intro hcc
                  rcases hvs2 with he | he <;> subst he <;>
                    exact absurd hcc (by decide)
                | ok st2 =>
                  rw [hv2] at hvs2
                  obtain ⟨ht2, ho2, hc2, hm2⟩ := hvs2
                  have hμst1 : stMeasure st1 =
                      2 * (st1.text.length - st1.pos) + 1 := by
                    simp [stMeasure, eofBit, hcur1]
                  simp only [hv2, calcBind_ok, calcPure_def, h2, reduceIte,
                    reduceCtorEq, if_false]
                  exact NoFuelOutOk_mono
                    (minusDispatch_spec f left st1.current st2 ihC (by omega))
                    (by rw [ht2, ht1]) (by omega)
              | OPEN_BRACKET =>
                have hμst1 : stMeasure st1 =
                    2 * (st1.text.length - st1.pos) + 1 := by
                  simp [stMeasure, eofBit, hcur1]
                have hA := ihA { st1 with openB := st1.openB + 1 }
                  (show 2 * (st1.text.length - st1.pos) + 1 ≤ f by omega)
                cases hA2 : arExpr f { st1 with openB := st1.openB + 1 } with
                | error e =>
                  rw [hA2] at hA
                  simp only [hA2, calcBind_err]
                  exact hA
                | ok r =>
                  rw [hA2] at hA
                  have htr : r.2.text = st1.text := hA.1
                  have hμr : stMeasure r.2 + 1 ≤
                      2 * (st1.text.length - st1.pos) := hA.2
                  simp only [hA2, calcBind_ok, calcPure_def, h2, reduceIte,
                    reduceCtorEq, if_false]
                  exact NoFuelOutOk_mono
                    (minusDispatch_spec f left ⟨.INTEGER, r.1⟩ r.2 ihC (by omega))
                    (by rw [htr, ht1]) (by omega)
              | CLOSING_BRACKET =>
                have hvs2 := validate_spec .CLOSING_BRACKET st1
                cases hv2 : validateAndAdvanceToken .CLOSING_BRACKET st1 with
                | error e =>
                  rw [hv2] at hvs2
                  simp only [hv2, calcBind_err]
                  intro hcc
                  rcases hvs2 with he | he <;> subst he <;>
                    exact absurd hcc (by decide)
                | ok st2 =>
                  rw [hv2] at hvs2
                  obtain ⟨ht2, ho2, hc2, hm2⟩ := hvs2
                  have hμst1 : stMeasure st1 =
                      2 * (st1.text.length - st1.pos) + 1 := by
                    simp [stMeasure, eofBit, hcur1]
                  simp only [hv2, calcBind_ok, calcPure_def]
                  refine ⟨?_, ?_⟩
                  · show st2.text = st.text
                    rw [ht2, ht1]
                  · show stMeasure st2 ≤ stMeasure st
                    omega
              | EOF =>
                simp only [calcPure_def, calcBind_ok, h2, reduceIte,
                  reduceCtorEq, if_false]
                exact NoFuelOutOk_mono
                  (minusDispatch_spec f left st1.current st1 ihC (by omega))
                  ht1 (by omega)
              | PLUS =>
                simp only [calcPure_def, calcBind_ok, h2, reduceIte,
                  reduceCtorEq, if_false]
                exact NoFuelOutOk_mono
                  (minusDispatch_spec f left st1.current st1 ihC (by omega))
                  ht1 (by omega)
              | MINUS =>
                simp only [calcPure_def, calcBind_ok, h2, reduceIte,
                  reduceCtorEq, if_false]
                exact NoFuelOutOk_mono
                  (minusDispatch_spec f left st1.current st1 ihC (by omega))
                  ht1 (by omega)
              | MULTIPLICATION =>
                simp only [calcPure_def, calcBind_ok, h2, reduceIte,
                  reduceCtorEq, if_false]
                exact NoFuelOutOk_mono
                  (minusDispatch_spec f left st1.current st1 ihC (by omega))
                  ht1 (by omega)
              | DIVISION =>
                simp only [calcPure_def, calcBind_ok, h2, reduceIte,
                  reduceCtorEq, if_false]
                exact NoFuelOutOk_mono
                  (minusDispatch_spec f left st1.current st1 ihC (by omega))
                  ht1 (by omega)
          · by_cases h3 : st.current.type = .MULTIPLICATION
            · rw [if_neg h1, if_neg h2, if_pos h3]
              have hvs := validate_spec .MULTIPLICATION st
              cases hv : validateAndAdvanceToken .MULTIPLICATION st with
              | error e =>
                rw [hv] at hvs
                simp only [hv, calcBind_err]
                intro hcc
                rcases hvs with he | he <;> subst he <;>
                  exact absurd hcc (by decide)
              | ok st1 =>
                rw [hv] at hvs
                obtain ⟨ht1, ho1, hc1, hm1⟩ := hvs
                simp only [hv, calcBind_ok]
                have hμ1 : stMeasure st1 + 1 ≤ stMeasure st := by omega
                cases hcur1 : st1.current.type with
                | INTEGER =>
                  have hvs2 := validate_spec .INTEGER st1
                  cases hv2 : validateAndAdvanceToken .INTEGER st1 with
                  | error e =>
                    rw [hv2] at hvs2
                    simp only [hv2, calcBind_err]
                    intro hcc
                    rcases hvs2 with he | he <;> subst he <;>
                      exact absurd hcc (by decide)
                  | ok st2 =>
                    rw [hv2] at hvs2
                    obtain ⟨ht2, ho2, hc2, hm2⟩ := hvs2
                    have hμst1 : stMeasure st1 =
                        2 * (st1.text.length - st1.pos) + 1 := by
                      simp [stMeasure, eofBit, hcur1]
                    simp only [hv2, calcBind_ok, calcPure_def, h3, reduceIte,
                      reduceCtorEq, if_false]
                    exact NoFuelOutOk_mono
                      (mulDispatch_spec f left st1.current st2 ihC (by omega))
                      (by rw [ht2, ht1]) (by omega)
                | OPEN_BRACKET =>
                  have hμst1 : stMeasure st1 =
                      2 * (st1.text.length - st1.pos) + 1 := by
                    simp [stMeasure, eofBit, hcur1]
                  have hA := ihA { st1 with openB := st1.openB + 1 }
                    (show 2 * (st1.text.length - st1.pos) + 1 ≤ f by omega)
                  cases hA2 : arExpr f { st1 with openB := st1.openB + 1 } with
                  | error e =>
                    rw [hA2] at hA
                    simp only [hA2, calcBind_err]
                    exact hA
                  | ok r =>
                    rw [hA2] at hA
                    have htr : r.2.text = st1.text := hA.1
                    have hμr : stMeasure r.2 + 1 ≤
                        2 * (st1.text.length - st1.pos) := hA.2
                    simp only [hA2, calcBind_ok, calcPure_def, h3, reduceIte,
                      reduceCtorEq, if_false]
                    exact NoFuelOutOk_mono
                      (mulDispatch_spec f left ⟨.INTEGER, r.1⟩ r.2 ihC (by omega))
                      (by rw [htr, ht1]) (by omega)
                | CLOSING_BRACKET =>
                  have hvs2 := validate_spec .CLOSING_BRACKET st1
                  cases hv2 : validateAndAdvanceToken .CLOSING_BRACKET st1 with
                  | error e =>
                    rw [hv2] at hvs2
                    simp only [hv2, calcBind_err]
                    intro hcc
                    rcases hvs2 with he | he <;> subst he <;>
                      exact absurd hcc (by decide)
                  | ok st2 =>
                    rw [hv2] at hvs2
                    obtain ⟨ht2, ho2, hc2, hm2⟩ := hvs2
                    have hμst1 : stMeasure st1 =
                        2 * (st1.text.length - st1.pos) + 1 := by
                      simp [stMeasure, eofBit, hcur1]
                    simp only [hv2, calcBind_ok, calcPure_def]
                    refine ⟨?_, ?_⟩
                    · show st2.text = st.text
                      rw [ht2, ht1]
                    · show stMeasure st2 ≤ stMeasure st
                      omega
                | EOF =>
                  simp only [calcPure_def, calcBind_ok, h3, reduceIte,
                    reduceCtorEq, if_false]
                  exact NoFuelOutOk_mono
                    (mulDispatch_spec f left st1.current st1 ihC (by omega))
                    ht1 (by omega)
                | PLUS =>
                  simp only [calcPure_def, calcBind_ok, h3, reduceIte,
                    reduceCtorEq, if_false]
                  exact NoFuelOutOk_mono
                    (mulDispatch_spec f left st1.current st1 ihC (by omega))
                    ht1 (by omega)
                | MINUS =>
                  simp only [calcPure_def, calcBind_ok, h3, reduceIte,
                    reduceCtorEq, if_false]
                  exact NoFuelOutOk_mono
                    (mulDispatch_spec f left st1.current st1 ihC (by omega))
                    ht1 (by omega)
                | MULTIPLICATION =>
                  simp only [calcPure_def, calcBind_ok, h3, reduceIte,
                    reduceCtorEq, if_false]
                  exact NoFuelOutOk_mono
                    (mulDispatch_spec f left st1.current st1 ihC (by omega))
                    ht1 (by omega)
                | DIVISION =>
                  simp only [calcPure_def, calcBind_ok, h3, reduceIte,
                    reduceCtorEq, if_false]
                  exact NoFuelOutOk_mono
                    (mulDispatch_spec f left st1.current st1 ihC (by omega))
                    ht1 (by omega)
            · by_cases h4 : st.current.type = .DIVISION
              · rw [if_neg h1, if_neg h2, if_neg h3, if_pos h4]
                have hvs := validate_spec .DIVISION st
                cases hv : validateAndAdvanceToken .DIVISION st with
                | error e =>
                  rw [hv] at hvs
                  simp only [hv, calcBind_err]
                  intro hcc
                  rcases hvs with he | he <;> subst he <;>
                    exact absurd hcc (by decide)
                | ok st1 =>
                  rw [hv] at hvs
                  obtain ⟨ht1, ho1, hc1, hm1⟩ := hvs
                  simp only [hv, calcBind_ok]
                  have hμ1 : stMeasure st1 + 1 ≤ stMeasure st := by omega
                  cases hcur1 : st1.current.type with
                  | INTEGER =>
                    have hvs2 := validate_spec .INTEGER st1
                    cases hv2 : validateAndAdvanceToken .INTEGER st1 with
                    | error e =>
                      rw [hv2] at hvs2
                      simp only [hv2, calcBind_err]
                      intro hcc
                      rcases hvs2 with he | he <;> subst he <;>
                        exact absurd hcc (by decide)
                    | ok st2 =>
                      rw [hv2] at hvs2
                      obtain ⟨ht2, ho2, hc2, hm2⟩ := hvs2
                      have hμst1 : stMeasure st1 =
                          2 * (st1.text.length - st1.pos) + 1 := by
                        simp [stMeasure, eofBit, hcur1]
                      simp only [hv2, calcBind_ok, calcPure_def, h4, reduceIte,
                        reduceCtorEq, if_false]
                      exact NoFuelOutOk_mono
                        (divDispatch_spec f left st1.current st2 ihC (by omega))
                        (by rw [ht2, ht1]) (by omega)
                  | OPEN_BRACKET =>
                    have hμst1 : stMeasure st1 =
                        2 * (st1.text.length - st1.pos) + 1 := by
                      simp [stMeasure, eofBit, hcur1]
                    have hA := ihA { st1 with openB := st1.openB + 1 }
                      (show 2 * (st1.text.length - st1.pos) + 1 ≤ f by omega)
                    cases hA2 : arExpr f { st1 with openB := st1.openB + 1 } with
                    | error e =>
                      rw [hA2] at hA
                      simp only [hA2, calcBind_err]
                      exact hA
                    | ok r =>
                      rw [hA2] at hA
                      have htr : r.2.text = st1.text := hA.1
                      have hμr : stMeasure r.2 + 1 ≤
                          2 * (st1.text.length - st1.pos) := hA.2
                      simp only [hA2, calcBind_ok, calcPure_def, h4, reduceIte,
                        reduceCtorEq, if_false]
                      exact NoFuelOutOk_mono
                        (divDispatch_spec f left ⟨.INTEGER, r.1⟩ r.2 ihC (by omega))
                        (by rw [htr, ht1]) (by omega)
                  | CLOSING_BRACKET =>
                    have hvs2 := validate_spec .CLOSING_BRACKET st1
                    cases hv2 : validateAndAdvanceToken .CLOSING_BRACKET st1 with
                    | error e =>
                      rw [hv2] at hvs2
                      simp only [hv2, calcBind_err]
                      intro hcc
                      rcases hvs2 with he | he <;> subst he <;>
                        exact absurd hcc (by decide)
                    | ok st2 =>
                      rw [hv2] at hvs2
                      obtain ⟨ht2, ho2, hc2, hm2⟩ := hvs2
                      have hμst1 : stMeasure st1 =
                          2 * (st1.text.length - st1.pos) + 1 := by
                        simp [stMeasure, eofBit, hcur1]
                      simp only [hv2, calcBind_ok, calcPure_def]
                      refine ⟨?_, ?_⟩
                      · show st2.text = st.text
                        rw [ht2, ht1]
                      · show stMeasure st2 ≤ stMeasure st
                        omega
                  | EOF =>
                    simp only [calcPure_def, calcBind_ok, h4, reduceIte,
                      reduceCtorEq, if_false]
                    exact NoFuelOutOk_mono
                      (divDispatch_spec f left st1.current st1 ihC (by omega))
                      ht1 (by omega)
                  | PLUS =>
                    simp only [calcPure_def, calcBind_ok, h4, reduceIte,
                      reduceCtorEq, if_false]
                    exact NoFuelOutOk_mono
                      (divDispatch_spec f left st1.current st1 ihC (by omega))
                      ht1 (by omega)
                  | MINUS =>
                    simp only [calcPure_def, calcBind_ok, h4, reduceIte,
                      reduceCtorEq, if_false]
                    exact NoFuelOutOk_mono
                      (divDispatch_spec f left st1.current st1 ihC (by omega))
                      ht1 (by omega)
                  | MULTIPLICATION =>
                    simp only [calcPure_def, calcBind_ok, h4, reduceIte,
                      reduceCtorEq, if_false]
                    exact NoFuelOutOk_mono
                      (divDispatch_spec f left st1.current st1 ihC (by omega))
                      ht1 (by omega)
                  | DIVISION =>
                    simp only [calcPure_def, calcBind_ok, h4, reduceIte,
                      reduceCtorEq, if_false]
                    exact NoFuelOutOk_mono
                      (divDispatch_spec f left st1.current st1 ihC (by omega))
                      ht1 (by omega)
              · rw [if_neg h1, if_neg h2, if_neg h3, if_neg h4]
                simp only [calcBind_ok]
                cases hcur1 : st.current.type with
                | EOF => exact absurd hcur1 heof
                | PLUS => exact absurd hcur1 h1
                | MINUS => exact absurd hcur1 h2
                | MULTIPLICATION => exact absurd hcur1 h3
                | DIVISION => exact absurd hcur1 h4
                | INTEGER =>
                  have hvs2 := validate_spec .INTEGER st
                  cases hv2 : validateAndAdvanceToken .INTEGER st with
                  | error e =>
                    rw [hv2] at hvs2
                    simp only [hv2, calcBind_err]
                    intro hcc
                    rcases hvs2 with he | he <;> subst he <;>
                      exact absurd hcc (by decide)
                  | ok st2 =>
                    rw [hv2] at hvs2
                    obtain ⟨ht2, ho2, hc2, hm2⟩ := hvs2
                    simp only [hv2, calcBind_ok, calcPure_def, hcur1, reduceIte,
                      reduceCtorEq, if_false]
                    exact NoFuelOutOk_mono
                      (divDispatch_spec f left st.current st2 ihC (by omega))
                      ht2 (by omega)
                | OPEN_BRACKET =>
                  have hA := ihA { st with openB := st.openB + 1 }
                    (show 2 * (st.text.length - st.pos) + 1 ≤ f by omega)
                  cases hA2 : arExpr f { st with openB := st.openB + 1 } with
                  | error e =>
                    rw [hA2] at hA
                    simp only [hA2, calcBind_err]
                    exact hA
                  | ok r =>
                    rw [hA2] at hA
                    have htr : r.2.text = st.text := hA.1
                    have hμr : stMeasure r.2 + 1 ≤
                        2 * (st.text.length - st.pos) := hA.2
                    simp only [hA2, calcBind_ok, calcPure_def, hcur1, reduceIte,
                      reduceCtorEq, if_false]
                    exact NoFuelOutOk_mono
                      (divDispatch_spec f left ⟨.INTEGER, r.1⟩ r.2 ihC (by omega))
                      htr (by omega)
                | CLOSING_BRACKET =>
                  have hvs2 := validate_spec .CLOSING_BRACKET st
                  cases hv2 : validateAndAdvanceToken .CLOSING_BRACKET st with
                  | error e =>
                    rw [hv2] at hvs2
                    simp only [hv2, calcBind_err]
                    intro hcc
                    rcases hvs2 with he | he <;> subst he <;>
                      exact absurd hcc (by decide)
                  | ok st2 =>
                    rw [hv2] at hvs2
                    obtain ⟨ht2, ho2, hc2, hm2⟩ := hvs2
                    simp only [hv2, calcBind_ok, calcPure_def]
                    refine ⟨?_, ?_⟩
                    · show st2.text = st.text
                      rw [ht2]
                    · show stMeasure st2 ≤ stMeasure st
                      omega

/-- Any recognized non-space character yields a token. -/
theorem getNextToken_ok_of_allowed {text : List Char} {pos : Nat}
    (hlt : pos < text.length)
    (hall : allowedChar (text.getD pos '?') = true)
    (hsp : text.getD pos '?' ≠ ' ') :
    ∃ r, getNextToken text pos = .ok r := by
  simp only [allowedChar, Bool.or_eq_true, decide_eq_true_eq] at hall
  rcases hall with ((((((hc | hc) | hc) | hc) | hc) | hc) | hc) | hc
  · exact absurd hc hsp
  · exact ⟨_, getNextToken_digit_case hlt hc⟩
  · exact ⟨_, getNextToken_plus hc⟩
  · exact ⟨_, getNextToken_minus hc⟩
  · exact ⟨_, getNextToken_star hc⟩
  · exact ⟨_, getNextToken_slash hc⟩
  · exact ⟨_, getNextToken_lparen hc⟩
  · exact ⟨_, getNextToken_rparen hc⟩

/-- Exact characterization of the lexer error: it fires precisely when
the first character at or after the position that is not a space is
not one of the recognized characters. -/
theorem getNextToken_error_iff (k : Nat) :
    ∀ (text : List Char) (pos : Nat), text.length - pos ≤ k →
    (getNextToken text pos = .error .lexErr ↔
      ∃ j, pos ≤ j ∧ j < text.length ∧
        (∀ i, pos ≤ i → i < j → text.getD i '?' = ' ') ∧
        allowedChar (text.getD j '?') = false) := by
  induction k with
  | zero =>
    intro text pos hk
    rw [getNextToken_eof (by omega)]
    constructor
    · intro h
      exact absurd h (by simp)
    · rintro ⟨j, hj1, hj2, -, -⟩
      omega
  | succ k ih =>
    intro text pos hk
    by_cases hlen : text.length ≤ pos
    · rw [getNextToken_eof hlen]
      constructor
      · intro h
        exact absurd h (by simp)
      · rintro ⟨j, hj1, hj2, -, -⟩
        omega
    · have hlt : pos < text.length := by omega
      by_cases hsp : text.getD pos '?' = ' '
      · rw [getNextToken_space hsp]
        rw [ih text (pos + 1) (by omega)]
        constructor
        · rintro ⟨j, hj1, hj2, hsk, hbad⟩
          refine ⟨j, by omega, hj2, ?_, hbad⟩
          intro i hi1 hi2
          rcases Nat.eq_or_lt_of_le hi1 with he | hl
          · rw [← he]
            exact hsp
          · exact hsk i (by omega) hi2
        · rintro ⟨j, hj1, hj2, hsk, hbad⟩
          refine ⟨j, ?_, hj2, fun i hi1 hi2 => hsk i (by omega) hi2,
            hbad⟩
          rcases Nat.eq_or_lt_of_le hj1 with he | hl
          · exfalso
            rw [← he, hsp] at hbad
            exact absurd hbad (by decide)
          · omega
      · by_cases hall : allowedChar (text.getD pos '?') = true
        · obtain ⟨r, hr⟩ := getNextToken_ok_of_allowed hlt hall hsp
          rw [hr]
          constructor
          · intro h
            exact absurd h (by simp)
          · rintro ⟨j, hj1, hj2, hsk, hbad⟩
            rcases Nat.eq_or_lt_of_le hj1 with he | hl
            · rw [← he] at hbad
              rw [hall] at hbad
              exact absurd hbad (by decide)
            · exact absurd (hsk pos (Nat.le_refl _) hl) hsp
        · rw [getNextToken_bad hlt ((Bool.not_eq_true _) ▸ hall)]
          constructor
          · intro _
            exact ⟨pos, Nat.le_refl _, hlt,
              fun i hi1 hi2 => absurd (Nat.lt_of_le_of_lt hi1 hi2)
                (Nat.lt_irrefl _),
              (Bool.not_eq_true _) ▸ hall⟩
          · intro _
            rfl

/-- `read_integer` on a maximal digit run yields its decimal value,
read left-to-right, and the cursor just past the run. -/
theorem readInteger_correct {text : List Char} {pos : Nat}
    {ds rest : List Char} (hds : ∀ c ∈ ds, c.isDigit = true)
    (hdrop : text.drop pos = ds ++ rest)
    (hb : (text.getD (pos + ds.length) '?').isDigit = false) :
    readInteger text pos = (decimalValue ds, pos + ds.length) := by
  have hloop := readIntegerLoop_run ds pos ['0'] (by decide) hds
    (by rw [drop_add_of_drop hdrop]; exact hdrop) hb
  rw [readInteger, hloop]
  rfl

/-- Evaluation of two juxtaposed numbers `a b` (separated by a space):
the operator dispatch falls through to floor division. -/
theorem calcEvaluate_juxt (a b : Nat) (hbne : b ≠ 0) :
    calcEvaluate (String.mk (natToDigits a ++ ' ' :: natToDigits b)) =
      .ok (.vInt (Int.fdiv a b)) := by
  have hbint : (b : Int) ≠ 0 := by exact_mod_cast hbne
  have hlen : (natToDigits a ++ ' ' :: natToDigits b).length =
      (natToDigits a).length + 1 + (natToDigits b).length := by
    simp only [List.length_append, List.length_cons]
    omega
  have hdrop0 : (natToDigits a ++ ' ' :: natToDigits b).drop 0 =
      natToDigits a ++ (' ' :: natToDigits b) := List.drop_zero _
  have hdropSp : (natToDigits a ++ ' ' :: natToDigits b).drop
      (natToDigits a).length = ' ' :: natToDigits b := by
    have h1 := drop_add_of_drop hdrop0
    rwa [Nat.zero_add] at h1
  have hbound0 : (((natToDigits a ++ ' ' :: natToDigits b).getD
      (0 + (natToDigits a).length) '?')).isDigit = false := by
    rw [Nat.zero_add, (drop_cons_getD _ _ hdropSp).1]
    decide
  have hread1 := getNextToken_digits (natToDigits_ne_nil a)
    (natToDigits_all_digit a) hdrop0 hbound0
  rw [decimalValue_natToDigits, Nat.zero_add] at hread1
  have hsp := (drop_cons_getD _ _ hdropSp).1
  have hdropb : (natToDigits a ++ ' ' :: natToDigits b).drop
      ((natToDigits a).length + 1) = natToDigits b ++ [] := by
    rw [(drop_cons_getD _ _ hdropSp).2.1, List.append_nil]
  have hboundb : (((natToDigits a ++ ' ' :: natToDigits b).getD
      ((natToDigits a).length + 1 + (natToDigits b).length)
      '?')).isDigit = false := by
    rw [getD_past_end (by omega)]
    decide
  have hread2 : getNextToken (natToDigits a ++ ' ' :: natToDigits b)
      (natToDigits a).length =
      .ok (⟨.INTEGER, .vInt b⟩,
        (natToDigits a).length + 1 + (natToDigits b).length) := by
    rw [getNextToken_space hsp]
    have h2 := getNextToken_digits (natToDigits_ne_nil b)
      (natToDigits_all_digit b) hdropb hboundb
    rwa [decimalValue_natToDigits] at h2
  have hreof : getNextToken (natToDigits a ++ ' ' :: natToDigits b)
      ((natToDigits a).length + 1 + (natToDigits b).length) =
      .ok (⟨.EOF, .vNone⟩,
        (natToDigits a).length + 1 + (natToDigits b).length) :=
    getNextToken_eof (by omega)
  have hfetch : fetchToken
      (initSt (natToDigits a ++ ' ' :: natToDigits b)) =
      .ok ({ text := natToDigits a ++ ' ' :: natToDigits b, pos := (natToDigits a).length, current := (⟨.INTEGER, .vInt a⟩ : Token), openB := 0, closedB := 0 } : St) :=
    @fetchToken_ok (initSt (natToDigits a ++ ' ' :: natToDigits b)) _ _
      hread1
  have hv1 := @validate_ok ({ text := natToDigits a ++ ' ' :: natToDigits b, pos := (natToDigits a).length, current := (⟨.INTEGER, .vInt a⟩ : Token), openB := 0, closedB := 0 } : St) .INTEGER _ _ rfl hread2
  have hv2 := @validate_ok ({ text := natToDigits a ++ ' ' :: natToDigits b, pos := (natToDigits a).length + 1 + (natToDigits b).length, current := (⟨.INTEGER, .vInt b⟩ : Token), openB := 0, closedB := 0 } : St) .INTEGER _ _ rfl hreof
  have htail : ∀ l : Token, continueArExpr
      (2 * (natToDigits a ++ ' ' :: natToDigits b).length) l
      ({ text := natToDigits a ++ ' ' :: natToDigits b, pos := (natToDigits a).length + 1 + (natToDigits b).length, current := (⟨.EOF, .vNone⟩ : Token), openB := 0, closedB := 0 } : St) =
      .ok (l.value, ({ text := natToDigits a ++ ' ' :: natToDigits b, pos := (natToDigits a).length + 1 + (natToDigits b).length, current := (⟨.EOF, .vNone⟩ : Token), openB := 0, closedB := 0 } : St)) := by
    intro l
    refine continueArExpr_eof rfl ?_
    have h1 : 1 ≤ (natToDigits a).length :=
      List.length_pos.mpr (natToDigits_ne_nil a)
    omega
  have hco : continueArExpr
      (2 * (natToDigits a ++ ' ' :: natToDigits b).length + 1)
      (⟨.INTEGER, .vInt a⟩ : Token)
      ({ text := natToDigits a ++ ' ' :: natToDigits b, pos := (natToDigits a).length + 1 + (natToDigits b).length, current := (⟨.INTEGER, .vInt b⟩ : Token), openB := 0, closedB := 0 } : St) =
      .ok (.vInt (Int.fdiv a b), ({ text := natToDigits a ++ ' ' :: natToDigits b, pos := (natToDigits a).length + 1 + (natToDigits b).length, current := (⟨.EOF, .vNone⟩ : Token), openB := 0, closedB := 0 } : St)) := by
    rw [continueArExpr]
    simp only [reduceCtorEq, if_false, reduceIte, hv2, calcBind_ok,
      calcPure_def, pyFloorDiv_int _ hbint, htail]
  rw [calcEvaluate]
  have hfuel : calcFuel (String.mk
      (natToDigits a ++ ' ' :: natToDigits b)).data =
      2 * (natToDigits a ++ ' ' :: natToDigits b).length + 1 + 1 := rfl
  rw [hfuel, arExpr]
  simp only [reduceIte, reduceCtorEq, if_false, hfetch, calcBind_ok,
    hv1, hco]
  rw [if_neg (by simp)]

/-- After the complete parenthesized expression `(4)` the interpreter
returns without reading further: any trailing input whose first token
lexes is ignored and the value 4 is returned. -/
theorem calcEvaluate_paren4_trailing (rest : List Char) (t : Token)
    (p : Nat)
    (h : getNextToken ('(' :: '4' :: ')' :: rest) 3 = .ok (t, p)) :
    calcEvaluate (String.mk ('(' :: '4' :: ')' :: rest)) =
      .ok (.vInt 4) := by
  have hlp : getNextToken ('(' :: '4' :: ')' :: rest) 0 =
      .ok (⟨.OPEN_BRACKET, .vStr ['(']⟩, 1) :=
    getNextToken_lparen rfl
  have hread4 : getNextToken ('(' :: '4' :: ')' :: rest) 1 =
      .ok (⟨.INTEGER, .vInt 4⟩, 2) := by
    have h4 := @getNextToken_digits ('(' :: '4' :: ')' :: rest)
      1 ['4'] (')' :: rest) (by decide)
      (by decide) rfl (show ((('(' :: '4' :: ')' :: rest).getD (1 + (['4'] : List Char).length) '?').isDigit = false) from rfl)
    simpa using h4
  have hrp : getNextToken ('(' :: '4' :: ')' :: rest) 2 =
      .ok (⟨.CLOSING_BRACKET, .vStr [')']⟩, 3) :=
    getNextToken_rparen rfl
  have hfetch0 : fetchToken (initSt ('(' :: '4' :: ')' :: rest)) =
      .ok ({ text := '(' :: '4' :: ')' :: rest, pos := 1, current := (⟨.OPEN_BRACKET, .vStr ['(']⟩ : Token), openB := 0, closedB := 0 } : St) :=
    @fetchToken_ok (initSt ('(' :: '4' :: ')' :: rest)) _ _ hlp
  have hfetch1 : fetchToken ({ text := '(' :: '4' :: ')' :: rest, pos := 1, current := (⟨.OPEN_BRACKET, .vStr ['(']⟩ : Token), openB := 1, closedB := 0 } : St) =
      .ok ({ text := '(' :: '4' :: ')' :: rest, pos := 2, current := (⟨.INTEGER, .vInt 4⟩ : Token), openB := 1, closedB := 0 } : St) :=
    @fetchToken_ok ({ text := '(' :: '4' :: ')' :: rest, pos := 1, current := (⟨.OPEN_BRACKET, .vStr ['(']⟩ : Token), openB := 1, closedB := 0 } : St) _ _ hread4
  have hv1 := @validate_ok ({ text := '(' :: '4' :: ')' :: rest, pos := 2, current := (⟨.INTEGER, .vInt 4⟩ : Token), openB := 1, closedB := 0 } : St) .INTEGER _ _ rfl hrp
  have hv2 := @validate_ok ({ text := '(' :: '4' :: ')' :: rest, pos := 3, current := (⟨.CLOSING_BRACKET, .vStr [')']⟩ : Token), openB := 1, closedB := 0 } : St) .CLOSING_BRACKET _ _ rfl h
  have hco : continueArExpr (2 * rest.length + 6)
      (⟨.INTEGER, .vInt 4⟩ : Token)
      ({ text := '(' :: '4' :: ')' :: rest, pos := 3, current := (⟨.CLOSING_BRACKET, .vStr [')']⟩ : Token), openB := 1, closedB := 0 } : St) =
      .ok (.vInt 4, ({ text := '(' :: '4' :: ')' :: rest, pos := p, current := t, openB := 1, closedB := 1 } : St)) := by
    have hfuel2 : 2 * rest.length + 6 = (2 * rest.length + 5) + 1 := rfl
    rw [hfuel2, continueArExpr]
    simp only [reduceCtorEq, if_false, reduceIte, hv2, calcBind_ok,
      calcPure_def]
  rw [calcEvaluate]
  have hfuel : calcFuel (String.mk ('(' :: '4' :: ')' :: rest)).data =
      (2 * rest.length + 7) + 1 := by
    simp [calcFuel]
    omega
  rw [hfuel, arExpr, hfetch0, calcBind_ok]
  simp only [reduceIte, Nat.reduceAdd]
  have hfuel1 : 2 * rest.length + 7 = (2 * rest.length + 6) + 1 := rfl
  rw [hfuel1, arExpr, hfetch1, calcBind_ok]
  simp only [reduceCtorEq, reduceIte, if_false]
  rw [hv1, calcBind_ok]
  simp only [reduceCtorEq, reduceIte, if_false]
  rw [hco, calcBind_ok]
  simp only [reduceCtorEq, reduceIte, if_false]
  rw [if_neg (by simp)]

end Calc

/-! ### The ten claims -/

/-- C1 counterexample: calc.py does not respect parenthesized grouping
in general.  On the well-formed expression "(2)+3" it returns 2 — after
a parenthesized group whose closing bracket is followed by an operator,
the rest of the input is discarded — while the grammar of the
specification (the reference parser in namespace Spec) gives 5. -/
theorem C1_grouping_cex :
    Calc.calcEvaluate "(2)+3" = Except.ok (Calc.PyValue.vInt 2) ∧
    Spec.specEvaluate "(2)+3" = Except.ok 5 :=
  ⟨rfl, rfl⟩

/-- C1 (corrected): the spec's two concrete precedence examples do hold
of calc.py — "2+3*4" evaluates to 14 and "(2+3)*4" evaluates to 20 —
but the general clause "for every well-formed expression the result
respects this precedence and parenthesized grouping" is false: on
"(2)+3" the interpreter returns 2, not 5. -/
theorem C1_precedence :
    Calc.calcEvaluate "2+3*4" = Except.ok (Calc.PyValue.vInt 14) ∧
    Calc.calcEvaluate "(2+3)*4" = Except.ok (Calc.PyValue.vInt 20) :=
  ⟨rfl, rfl⟩

/-- C2: chains of same-precedence operators fold left-to-right: for
every chain a op1 b1 op2 b2 ... of additive operators (or of
multiplicative operators, with no division by zero), calc.py returns
the left-folded value chainFold, which groups as ((a op1 b1) op2 b2)
and so on.  In particular "8-3-2" gives 3, not 7 (the witness). -/
theorem C2_left_assoc (a : Nat) (rest : List (Calc.ChainOp × Nat))
    (hprec : Calc.addSubOnly rest ∨ Calc.mulDivOnly rest)
    (hdiv : Calc.noDivZero rest) :
    Calc.calcEvaluate (String.mk (Calc.renderChain a rest)) =
      Except.ok (Calc.PyValue.vInt (Calc.chainFold a rest)) :=
  Calc.calcEvaluate_chain a rest hprec hdiv

/-- C2 witness: the chain theorem at the concrete input "8-3-2". -/
theorem C2_left_assoc_w :
    Calc.calcEvaluate "8-3-2" = Except.ok (Calc.PyValue.vInt 3) := by
  have h := C2_left_assoc 8 [(Calc.ChainOp.sub, 3), (Calc.ChainOp.sub, 2)]
    (Or.inl (by unfold Calc.addSubOnly; decide))
    (by unfold Calc.noDivZero; decide)
  rw [(show String.mk (Calc.renderChain 8 [(Calc.ChainOp.sub, 3), (Calc.ChainOp.sub, 2)]) = "8-3-2" from rfl)] at h
  exact h.trans rfl

/-- C3 counterexample: the claim quantifies over all integers a, but a
negative left operand is not even parseable by calc.py: "-5/2" fails
with the parse error (the leading minus is read as the first token and
ar_expr then requires an INTEGER), instead of evaluating to -3. -/
theorem C3_negative_cex :
    Calc.calcEvaluate "-5/2" = Except.error Calc.CalcErr.parseErr :=
  rfl

/-- C3 (corrected): for natural-number literals a and b with b nonzero,
calc.py evaluates "a*b" to the product and "a/b" to the floor division
(rounding toward negative infinity) of a by b; and the evaluator's
division primitive pyFloorDiv (Python's //) is floor division on all
integer values.  Negative left operands are not expressible as input
literals: a leading minus makes calc.py fail (the counterexample). -/
theorem C3_mul_div (a b : Nat) (hb : b ≠ 0) :
    Calc.calcEvaluate (String.mk (Calc.renderChain a [(Calc.ChainOp.mul, b)])) =
      Except.ok (Calc.PyValue.vInt ((a : Int) * (b : Int))) ∧
    Calc.calcEvaluate (String.mk (Calc.renderChain a [(Calc.ChainOp.div, b)])) =
      Except.ok (Calc.PyValue.vInt (Int.fdiv (a : Int) (b : Int))) ∧
    ∀ x y : Int, y ≠ 0 →
      Calc.pyFloorDiv (Calc.PyValue.vInt x) (Calc.PyValue.vInt y) =
        Except.ok (Calc.PyValue.vInt (Int.fdiv x y)) := by
  refine ⟨?_, ?_, fun x y hy => Calc.pyFloorDiv_int x hy⟩
  · have h := Calc.calcEvaluate_chain a [(Calc.ChainOp.mul, b)]
      (Or.inr (by intro q hq; rw [List.mem_singleton] at hq; subst hq; exact Or.inl rfl))
      (by intro q hq hqd; rw [List.mem_singleton] at hq; subst hq; simp at hqd)
    simpa [Calc.chainFold, Calc.applyChainOp] using h
  · have h := Calc.calcEvaluate_chain a [(Calc.ChainOp.div, b)]
      (Or.inr (by intro q hq; rw [List.mem_singleton] at hq; subst hq; exact Or.inr rfl))
      (by intro q hq hqd; rw [List.mem_singleton] at hq; subst hq; exact hb)
    simpa [Calc.chainFold, Calc.applyChainOp] using h

/-- C3 witness: the multiplication and division theorem at a = 7,
b = 2: "7*2" gives 14 and "7/2" gives 3. -/
theorem C3_mul_div_w :
    Calc.calcEvaluate "7*2" = Except.ok (Calc.PyValue.vInt 14) ∧
    Calc.calcEvaluate "7/2" = Except.ok (Calc.PyValue.vInt 3) := by
  have h := C3_mul_div 7 2 (by decide)
  constructor
  · have h1 := h.1
    rw [(show String.mk (Calc.renderChain 7 [(Calc.ChainOp.mul, 2)]) = "7*2" from rfl)] at h1
    exact h1.trans rfl
  · have h2 := h.2.1
    rw [(show String.mk (Calc.renderChain 7 [(Calc.ChainOp.div, 2)]) = "7/2" from rfl)] at h2
    exact h2.trans rfl

/-- C4 counterexample: tokens remain after a complete parenthesized
expression, yet calc.py returns a value instead of failing: "(4)5"
evaluates to 4 and the trailing 5 is silently discarded. -/
theorem C4_trailing_cex :
    Calc.calcEvaluate "(4)5" = Except.ok (Calc.PyValue.vInt 4) :=
  rfl

/-- C4 (corrected): there is no trailing-input check.  For every input
of the form "(4)" ++ rest whose continuation lexes to any token at
all, calc.py returns 4: after the closing bracket of a parenthesized
expression the remaining tokens are never consumed and no error is
raised. -/
theorem C4_trailing (rest : List Char) (t : Calc.Token) (p : Nat)
    (h : Calc.getNextToken ('(' :: '4' :: ')' :: rest) 3 = Except.ok (t, p)) :
    Calc.calcEvaluate (String.mk ('(' :: '4' :: ')' :: rest)) =
      Except.ok (Calc.PyValue.vInt 4) :=
  Calc.calcEvaluate_paren4_trailing rest t p h

/-- C4 witness: the trailing-input theorem at rest = "9". -/
theorem C4_trailing_w :
    Calc.calcEvaluate "(4)9" = Except.ok (Calc.PyValue.vInt 4) := by
  have h := C4_trailing ['9'] ⟨Calc.TokenType.INTEGER, Calc.PyValue.vInt 9⟩ 4 rfl
  rw [(show String.mk ('(' :: '4' :: ')' :: ['9']) = "(4)9" from rfl)] at h
  exact h

/-- C5: division by zero fails with the dedicated zero-division error:
"4/0" evaluates to ZeroDivisionError, and the division primitive
pyFloorDiv returns that error on every integer numerator with zero
denominator, before any quotient is formed. -/
theorem C5_division_by_zero :
    Calc.calcEvaluate "4/0" = Except.error Calc.CalcErr.zeroDivErr ∧
    ∀ x : Int, Calc.pyFloorDiv (Calc.PyValue.vInt x) (Calc.PyValue.vInt 0) =
      Except.error Calc.CalcErr.zeroDivErr := by
  refine ⟨rfl, fun x => ?_⟩
  simp [Calc.pyFloorDiv]

/-- C6 counterexample: "4++4" does NOT fail with the parse error: the
second plus is taken as a right operand and its character value is
later added to an integer, so calc.py dies with a Python TypeError
instead. -/
theorem C6_plusplus_cex :
    Calc.calcEvaluate "4++4" ≠ Except.error Calc.CalcErr.parseErr := by
  intro hx
  rw [show Calc.calcEvaluate "4++4" = Except.error Calc.CalcErr.typeErr from rfl] at hx
  simp at hx

/-- C6 (corrected): validate_and_advance_token raises the parse error
whenever the current token's type differs from the required one — but
"4++4" is not such a case: the second plus never reaches a validation
site in operand position, and evaluation fails with a TypeError
instead of a ParseError. -/
theorem C6_unexpected (ty : Calc.TokenType) (st : Calc.St)
    (h : st.current.type ≠ ty) :
    Calc.validateAndAdvanceToken ty st = Except.error Calc.CalcErr.parseErr ∧
    Calc.calcEvaluate "4++4" = Except.error Calc.CalcErr.typeErr :=
  ⟨Calc.validate_mismatch h, rfl⟩

/-- C6 witness: requiring an INTEGER while the current token is a PLUS
raises the parse error. -/
theorem C6_unexpected_w :
    Calc.validateAndAdvanceToken Calc.TokenType.INTEGER { text := ['+'], pos := 1, current := ⟨Calc.TokenType.PLUS, Calc.PyValue.vStr ['+']⟩, openB := 0, closedB := 0 } =
      Except.error Calc.CalcErr.parseErr :=
  (C6_unexpected Calc.TokenType.INTEGER { text := ['+'], pos := 1, current := ⟨Calc.TokenType.PLUS, Calc.PyValue.vStr ['+']⟩, openB := 0, closedB := 0 }
    (by decide)).1

/-- C7 counterexample: a tab is whitespace but is NOT skipped: the
lexer's skip branch tests only the space character, so a tab raises
the lexer error, both at token level and through evaluate. -/
theorem C7_tab_cex :
    Calc.getNextToken ['\t', '4'] 0 = Except.error Calc.CalcErr.lexErr ∧
    Calc.calcEvaluate "\t4" = Except.error Calc.CalcErr.lexErr :=
  ⟨rfl, rfl⟩

/-- C7 (corrected): the lexer skips only the space character (not
tabs) before a token, and raises its error exactly when the first
non-space character at or after the cursor is not one of: a space, an
ASCII digit, or the six operator/parenthesis characters; end-of-input
yields the EOF token, not an error. -/
theorem C7_whitespace_lex (text : List Char) (pos : Nat) :
    (text.getD pos '?' = ' ' →
      Calc.getNextToken text pos = Calc.getNextToken text (pos + 1)) ∧
    (Calc.getNextToken text pos = Except.error Calc.CalcErr.lexErr ↔
      ∃ j, pos ≤ j ∧ j < text.length ∧
        (∀ i, pos ≤ i → i < j → text.getD i '?' = ' ') ∧
        Calc.allowedChar (text.getD j '?') = false) :=
  ⟨fun h => Calc.getNextToken_space h,
   Calc.getNextToken_error_iff text.length text pos (Nat.sub_le _ _)⟩

/-- C8 counterexample: the backward-scanning lexer of the LISP-notation
variant is NOT observably equivalent to left-to-right scanning: on the
two-character literal "12" it produces the integer 21 (it appends
digits while walking right-to-left), while calc.py's read_integer
produces 12. -/
theorem C8_backward_cex :
    LispVariant.lispInteger ['1', '2'] 1 = 21 ∧
    Calc.readInteger ['1', '2'] 0 = (12, 2) :=
  ⟨rfl, rfl⟩

/-- C8 (corrected): calc.py's read_integer does read a maximal run of
ASCII digits and returns its left-to-right decimal value, advancing
the cursor past the run — but the backward-scanning variant is not
equivalent to it: it reads "12" as 21. -/
theorem C8_integer_token {text : List Char} {pos : Nat}
    {ds rest : List Char} (hds : ∀ c ∈ ds, c.isDigit = true)
    (hdrop : text.drop pos = ds ++ rest)
    (hb : (text.getD (pos + ds.length) '?').isDigit = false) :
    Calc.readInteger text pos = (Calc.decimalValue ds, pos + ds.length) ∧
    LispVariant.lispInteger ['1', '2'] 1 = 21 :=
  ⟨Calc.readInteger_correct hds hdrop hb, rfl⟩

/-- C8 witness: the digit run of "12+" is read as the integer 12 with
the cursor left on the plus. -/
theorem C8_integer_token_w :
    Calc.readInteger ['1', '2', '+'] 0 = (12, 2) := by
  have h := (@C8_integer_token ['1', '2', '+'] 0 ['1', '2'] ['+']
    (by decide) (by decide) (by decide)).1
  exact h.trans rfl

/-- C9: evaluation terminates on every finite input: run with the fuel
budgeted by calcEvaluate, the interpreter never exhausts it (the
fuelOut marker of the embedding is unreachable), because the lexer's
cursor strictly advances and each interpreter step consumes input or a
pending token. -/
theorem C9_termination (s : String) :
    Calc.calcEvaluate s ≠ Except.error Calc.CalcErr.fuelOut := by
  have h := (Calc.interp_fuel_spec (Calc.calcFuel s.data)).1 (Calc.initSt s.data)
    (show 2 * (s.data.length - 0) + 1 ≤ 2 * s.data.length + 2 by omega)
  intro hc
  unfold Calc.calcEvaluate at hc
  cases har : Calc.arExpr (Calc.calcFuel s.data) (Calc.initSt s.data) with
  | ok r => rw [har] at hc; simp at hc
  | error e =>
    rw [har] at h hc
    simp only [Except.error.injEq] at hc
    exact h hc

/-- C10: when a token that is none of the four operators or EOF stands
in operator position, continue_ar_expr's dispatch falls through to its
final else branch and performs floor division: two numbers separated
by a space evaluate to their floor quotient instead of raising an
error. -/
theorem C10_juxtaposition (a b : Nat) (hb : b ≠ 0) :
    Calc.calcEvaluate (String.mk (Calc.natToDigits a ++ ' ' :: Calc.natToDigits b)) =
      Except.ok (Calc.PyValue.vInt (Int.fdiv a b)) :=
  Calc.calcEvaluate_juxt a b hb

/-- C10 witness: "4 5" evaluates to the floor quotient 0. -/
theorem C10_juxtaposition_w :
    Calc.calcEvaluate "4 5" = Except.ok (Calc.PyValue.vInt 0) := by
  have h := C10_juxtaposition 4 5 (by decide)
  rw [(show String.mk (Calc.natToDigits 4 ++ ' ' :: Calc.natToDigits 5) = "4 5" from rfl)] at h
  exact h.trans rfl
